import Mathlib

/-!
Verification of the badge-generation pipeline in `generate_images.py`.

Strings are modelled as `List Char`.  The regex substitutions performed by
the script (`re.sub(pattern, repl, s)` where every pattern is a literal
placeholder token) are modelled by `replaceAll`, a left-to-right
non-overlapping replace-all scan.  This matches `re.sub` exactly when the
pattern is metacharacter-free and the replacement string contains no
backslash: `re.sub` additionally processes the replacement as a template
(backslash escapes and group references such as a backslash followed by
`g<0>`, which reinserts the matched text), and that processing is the
identity precisely on backslash-free replacements.  Theorems whose
conclusion depends on the substituted value therefore carry backslash-free
hypotheses on the data that flows into a replacement position.
-/

set_option maxRecDepth 8000

namespace GS

/-- Predicate builder: `leads p s` is `true` when the list `s` starts with `p`. -/
def leads : List Char → List Char → Bool
  | [], _ => true
  | _ :: _, [] => false
  | a :: p, b :: s => a == b && leads p s

/-- Proposition: `s` starts with `p`. -/
def begins (p s : List Char) : Prop := ∃ t, s = p ++ t

/-- Proposition: the pattern `p` occurs contiguously somewhere inside `s`. -/
def occ (p s : List Char) : Prop := ∃ u w, s = u ++ p ++ w

theorem leads_iff (p s : List Char) : leads p s = true ↔ begins p s := by
  induction p generalizing s with
  | nil => simp [leads, begins]
  | cons a p ih =>
    cases s with
    | nil => simp [leads, begins]
    | cons b s =>
      simp only [leads, Bool.and_eq_true, beq_iff_eq, ih, begins]
      constructor
      · rintro ⟨rfl, t, rfl⟩
        exact ⟨t, rfl⟩
      · rintro ⟨t, h⟩
        cases h
        exact ⟨rfl, t, rfl⟩

instance (p s : List Char) : Decidable (begins p s) :=
  decidable_of_iff _ (leads_iff p s)

/-- Boolean scan for an occurrence of `p` inside `s`. -/
def occB (p : List Char) : List Char → Bool
  | [] => leads p []
  | c :: t => leads p (c :: t) || occB p t

theorem occB_iff (p s : List Char) : occB p s = true ↔ occ p s := by
  induction s with
  | nil =>
    simp only [occB, leads_iff, begins, occ]
    constructor
    · rintro ⟨t, h⟩
      exact ⟨[], t, h⟩
    · rintro ⟨u, w, h⟩
      rw [eq_comm, List.append_eq_nil] at h
      rcases h with ⟨h1, h2⟩
      rw [List.append_eq_nil] at h1
      exact ⟨[], by simp [h1.1, h1.2, h2]⟩
  | cons c t ih =>
    simp only [occB, Bool.or_eq_true, leads_iff, begins, ih, occ]
    constructor
    · rintro (⟨w, h⟩ | ⟨u, w, h⟩)
      · exact ⟨[], w, by simp [h]⟩
      · exact ⟨c :: u, w, by simp [h]⟩
    · rintro ⟨u, w, h⟩
      cases u with
      | nil => exact Or.inl ⟨w, by simpa using h⟩
      | cons x u =>
        rw [List.cons_append, List.cons_append] at h
        cases h
        exact Or.inr ⟨u, w, rfl⟩

instance (p s : List Char) : Decidable (occ p s) :=
  decidable_of_iff _ (occB_iff p s)

theorem occ_of_begins {p s : List Char} (h : begins p s) : occ p s := by
  rcases h with ⟨t, rfl⟩
  exact ⟨[], t, rfl⟩

theorem occ_append_left {p s t : List Char} (h : occ p t) : occ p (s ++ t) := by
  rcases h with ⟨u, w, rfl⟩
  exact ⟨s ++ u, w, by simp⟩

theorem occ_append_right {p s t : List Char} (h : occ p s) : occ p (s ++ t) := by
  rcases h with ⟨u, w, rfl⟩
  exact ⟨u, w ++ t, by simp⟩

theorem occ_cons {p : List Char} {c : Char} {t : List Char} (h : occ p t) :
    occ p (c :: t) := by
  rcases h with ⟨u, w, rfl⟩
  exact ⟨c :: u, w, rfl⟩

theorem mem_of_occ {p s : List Char} (h : occ p s) {c : Char} (hc : c ∈ p) :
    c ∈ s := by
  rcases h with ⟨u, w, rfl⟩
  simp [hc]

theorem occ_length_le {p s : List Char} (h : occ p s) : p.length ≤ s.length := by
  rcases h with ⟨u, w, rfl⟩
  simp
  omega

theorem head_mem_of_begins {p s : List Char} {h : Char}
    (hp : p.head? = some h) (hb : begins p s) : h ∈ s := by
  rcases hb with ⟨t, rfl⟩
  cases p with
  | nil => simp at hp
  | cons a p =>
    simp only [List.head?_cons, Option.some.injEq] at hp
    simp [hp.symm]

theorem head_mem_of_occ {p s : List Char} {h : Char}
    (hp : p.head? = some h) (ho : occ p s) : h ∈ s := by
  rcases ho with ⟨u, w, rfl⟩
  cases p with
  | nil => simp at hp
  | cons a p =>
    simp only [List.head?_cons, Option.some.injEq] at hp
    simp [hp.symm]

theorem getLast?_mem_self : ∀ {l : List Char} {a : Char}, l.getLast? = some a → a ∈ l
  | [], _, h => by simp at h
  | [c], a, h => by
      simp only [List.getLast?_singleton, Option.some.injEq] at h
      simp [h]
  | c :: d :: t, a, h => by
      rw [List.getLast?_cons_cons] at h
      exact List.mem_cons_of_mem c (getLast?_mem_self h)

theorem begins_nil {q : List Char} (h : begins q []) : q = [] := by
  rcases h with ⟨t, ht⟩
  rw [eq_comm, List.append_eq_nil] at ht
  exact ht.1

theorem mem_of_begins {q s : List Char} (h : begins q s) {c : Char} (hc : c ∈ q) :
    c ∈ s := by
  rcases h with ⟨t, rfl⟩
  simp [hc]

theorem begins_append_cases {q r Z : List Char} (h : begins q (r ++ Z)) :
    begins q r ∨ ∃ q', q = r ++ q' ∧ begins q' Z := by
  rcases h with ⟨t, ht⟩
  rw [eq_comm, List.append_eq_append_iff] at ht
  rcases ht with ⟨a', ha1, _⟩ | ⟨c', hc1, hc2⟩
  · exact Or.inl ⟨a', ha1⟩
  · exact Or.inr ⟨c', hc1, t, hc2⟩

theorem getLast?_suffix {q p : List Char} (hq : q ≠ []) (hs : q <:+ p) :
    p.getLast? = q.getLast? := by
  rcases hs with ⟨u, rfl⟩
  exact List.getLast?_append_of_ne_nil u hq

/-- Fuel-indexed left-to-right non-overlapping replace-all scan.  The fuel is
always instantiated with the length of the scanned list, which suffices since
every step consumes at least one character. -/
def replaceAllF (p r : List Char) : Nat → List Char → List Char
  | 0, s => s
  | _ + 1, [] => []
  | f + 1, c :: s =>
    if leads p (c :: s) then r ++ replaceAllF p r f (s.drop (p.length - 1))
    else c :: replaceAllF p r f s

/-- Model of `re.sub(p, r, s)` for a literal (metacharacter-free) pattern `p`
and a backslash-free replacement `r` (on which `re.sub`'s replacement-template
processing is the identity): replace every non-overlapping occurrence of `p`
in `s` by `r`, scanning left to right. -/
def replaceAll (p r s : List Char) : List Char := replaceAllF p r s.length s

theorem replaceAllF_fuel_irrel (p r : List Char) :
    ∀ (f g : Nat) (s : List Char), s.length ≤ f → s.length ≤ g →
      replaceAllF p r f s = replaceAllF p r g s := by
  intro f
  induction f with
  | zero =>
    intro g s hf _
    have : s = [] := List.length_eq_zero.mp (Nat.le_zero.mp hf)
    subst this
    cases g <;> rfl
  | succ f ih =>
    intro g s hf hg
    cases s with
    | nil => cases g <;> rfl
    | cons c s' =>
      cases g with
      | zero => simp at hg
      | succ g' =>
        simp only [List.length_cons, Nat.succ_le_succ_iff] at hf hg
        simp only [replaceAllF]
        by_cases hld : leads p (c :: s') = true
        · rw [if_pos hld, if_pos hld]
          have hd : (s'.drop (p.length - 1)).length ≤ s'.length := by
            rw [List.length_drop]
            omega
          rw [ih g' _ (le_trans hd hf) (le_trans hd hg)]
        · rw [if_neg hld, if_neg hld, ih g' s' hf hg]

theorem replaceAllF_of_not_occ (p r : List Char) :
    ∀ (f : Nat) (s : List Char), ¬ occ p s → replaceAllF p r f s = s := by
  intro f
  induction f with
  | zero => intro s _; rfl
  | succ f ih =>
    intro s hno
    cases s with
    | nil => rfl
    | cons c s' =>
      simp only [replaceAllF]
      rw [if_neg, ih s' (fun h => hno (occ_cons h))]
      intro hld
      exact hno (occ_of_begins ((leads_iff _ _).mp hld))

theorem replaceAll_of_not_occ {p r s : List Char} (h : ¬ occ p s) :
    replaceAll p r s = s :=
  replaceAllF_of_not_occ p r s.length s h

/-- Helper invariant for the scan: a nonempty suffix `q` of the protected
pattern `p` that starts the scan output must already start the scanned input,
provided the replacement `r` cannot supply characters of `p` at the relevant
boundaries. -/
theorem begins_of_begins_replaceAllF {p r : List Char} {lt : Char}
    (hlast : p.getLast? = some lt) (hltr : lt ∉ r) (hrp : ¬ occ r p)
    (p₂ : List Char) :
    ∀ (f : Nat) (s q : List Char), q ≠ [] → q <:+ p →
      begins q (replaceAllF p₂ r f s) → begins q s := by
  intro f
  induction f with
  | zero => intro s q _ _ hb; exact hb
  | succ f ih =>
    intro s q hq hqs hb
    cases s with
    | nil =>
      exact absurd (begins_nil hb) hq
    | cons c s' =>
      simp only [replaceAllF] at hb
      by_cases hld : leads p₂ (c :: s') = true
      · rw [if_pos hld] at hb
        rcases begins_append_cases hb with hbr | ⟨q', rfl, _⟩
        · exfalso
          have hql : q.getLast? = some lt := by rw [← getLast?_suffix hq hqs, hlast]
          exact hltr (mem_of_begins hbr (getLast?_mem_self hql))
        · exfalso
          rcases hqs with ⟨u, hu⟩
          exact hrp ⟨u, q', by rw [← hu, List.append_assoc]⟩
      · rw [if_neg hld] at hb
        rcases hb with ⟨t, ht⟩
        cases q with
        | nil => exact absurd rfl hq
        | cons a q' =>
          rw [List.cons_append] at ht
          injection ht with h1 h2
          subst h1
          cases q' with
          | nil => exact ⟨s', rfl⟩
          | cons b q'' =>
            have hq's : (b :: q'') <:+ p := by
              rcases hqs with ⟨u, hu⟩
              exact ⟨u ++ [c], by rw [← hu]; simp⟩
            have : begins (b :: q'') s' :=
              ih s' (b :: q'') (by simp) hq's ⟨t, h2⟩
            rcases this with ⟨t', rfl⟩
            exact ⟨t', rfl⟩

theorem head?_cases {p : List Char} {hd : Char} (h : p.head? = some hd) :
    ∃ pt, p = hd :: pt := by
  cases p with
  | nil => simp at h
  | cons a pt =>
    simp only [List.head?_cons, Option.some.injEq] at h
    exact ⟨pt, by rw [h]⟩

theorem not_occ_nil {p : List Char} (hp : p ≠ []) : ¬ occ p [] := fun h =>
  hp (List.length_eq_zero.mp (Nat.le_zero.mp (occ_length_le h)))

theorem occ_append_repl {p r RA : List Char} {hd : Char}
    (hhead : p.head? = some hd) (hhdr : hd ∉ r)
    (hno : ¬ occ p RA) : ¬ occ p (r ++ RA) := by
  rintro ⟨u, w, heq⟩
  rw [List.append_assoc] at heq
  rcases List.append_eq_append_iff.mp heq.symm with ⟨a', ha1, ha2⟩ | ⟨c', _, hc2⟩
  · cases a' with
    | nil =>
      simp only [List.nil_append] at ha2
      exact hno ⟨[], w, by simp [← ha2]⟩
    | cons x a'' =>
      rcases head?_cases hhead with ⟨pt, rfl⟩
      rw [List.cons_append, List.cons_append] at ha2
      injection ha2 with h1 _
      subst h1
      exact hhdr (by simp [ha1])
  · exact hno ⟨c', w, by rw [hc2, List.append_assoc]⟩

/-- The token `p` never occurs in the result of replacing it everywhere by
`r`, provided `r` cannot recreate it: the first and last characters of `p` do
not occur in `r`, and `r` is not a contiguous piece of `p`. -/
theorem not_occ_replaceAllF_self {p r : List Char} {hd lt : Char}
    (hhead : p.head? = some hd) (hhdr : hd ∉ r)
    (hlast : p.getLast? = some lt) (hltr : lt ∉ r) (hrp : ¬ occ r p) :
    ∀ (f : Nat) (s : List Char), s.length ≤ f → ¬ occ p (replaceAllF p r f s) := by
  have hpne : p ≠ [] := by
    rcases head?_cases hhead with ⟨pt, rfl⟩
    simp
  intro f
  induction f with
  | zero =>
    intro s hf
    have : s = [] := List.length_eq_zero.mp (Nat.le_zero.mp hf)
    subst this
    exact not_occ_nil hpne
  | succ f ih =>
    intro s hf
    cases s with
    | nil => exact not_occ_nil hpne
    | cons c s' =>
      simp only [List.length_cons, Nat.succ_le_succ_iff] at hf
      simp only [replaceAllF]
      by_cases hld : leads p (c :: s') = true
      · rw [if_pos hld]
        refine occ_append_repl hhead hhdr (ih _ ?_)
        rw [List.length_drop]
        omega
      · rw [if_neg hld]
        rintro ⟨u, w, heq⟩
        cases u with
        | nil =>
          simp only [List.nil_append] at heq
          rcases head?_cases hhead with ⟨pt, rfl⟩
          rw [List.cons_append] at heq
          injection heq with h1 h2
          subst h1
          cases pt with
          | nil =>
            exact hld ((leads_iff _ _).mpr ⟨s', rfl⟩)
          | cons b pt' =>
            have hbp : (b :: pt') <:+ (c :: b :: pt') := ⟨[c], rfl⟩
            have hbs : begins (b :: pt') s' :=
              begins_of_begins_replaceAllF hlast hltr hrp _ f s' (b :: pt')
                (by simp) hbp ⟨w, h2⟩
            rcases hbs with ⟨t, rfl⟩
            exact hld ((leads_iff _ _).mpr ⟨t, rfl⟩)
        | cons x u' =>
          rw [List.cons_append, List.cons_append] at heq
          injection heq with _ h2
          exact ih s' hf ⟨u', w, h2⟩

/-- Replacing a (possibly different) token `p₂` by `r` cannot introduce a new
occurrence of `p`, under the same boundary conditions on `r` and `p`. -/
theorem not_occ_replaceAllF_other {p r : List Char} {hd lt : Char}
    (hhead : p.head? = some hd) (hhdr : hd ∉ r)
    (hlast : p.getLast? = some lt) (hltr : lt ∉ r) (hrp : ¬ occ r p)
    (p₂ : List Char) :
    ∀ (f : Nat) (s : List Char), ¬ occ p s → ¬ occ p (replaceAllF p₂ r f s) := by
  intro f
  induction f with
  | zero => intro s hno; exact hno
  | succ f ih =>
    intro s hno
    cases s with
    | nil => exact hno
    | cons c s' =>
      simp only [replaceAllF]
      by_cases hld : leads p₂ (c :: s') = true
      · rw [if_pos hld]
        refine occ_append_repl hhead hhdr (ih _ ?_)
        intro hD
        refine hno (occ_cons ?_)
        have : s' = s'.take (p₂.length - 1) ++ s'.drop (p₂.length - 1) :=
          (List.take_append_drop _ _).symm
        rw [this]
        exact occ_append_left hD
      · rw [if_neg hld]
        rintro ⟨u, w, heq⟩
        cases u with
        | nil =>
          simp only [List.nil_append] at heq
          rcases head?_cases hhead with ⟨pt, rfl⟩
          rw [List.cons_append] at heq
          injection heq with h1 h2
          subst h1
          cases pt with
          | nil => exact hno ⟨[], s', rfl⟩
          | cons b pt' =>
            have hbp : (b :: pt') <:+ (c :: b :: pt') := ⟨[c], rfl⟩
            have hbs : begins (b :: pt') s' :=
              begins_of_begins_replaceAllF hlast hltr hrp _ f s' (b :: pt')
                (by simp) hbp ⟨w, h2⟩
            rcases hbs with ⟨t, rfl⟩
            exact hno ⟨[], t, rfl⟩
        | cons x u' =>
          rw [List.cons_append, List.cons_append] at heq
          injection heq with _ h2
          exact ih s' (fun h => hno (occ_cons h)) ⟨u', w, h2⟩

/-- Top-level wrapper of `not_occ_replaceAllF_self` for `replaceAll`. -/
theorem not_occ_replaceAll_self {p r : List Char} {hd lt : Char}
    (hhead : p.head? = some hd) (hhdr : hd ∉ r)
    (hlast : p.getLast? = some lt) (hltr : lt ∉ r) (hrp : ¬ occ r p)
    (s : List Char) : ¬ occ p (replaceAll p r s) :=
  not_occ_replaceAllF_self hhead hhdr hlast hltr hrp s.length s le_rfl

/-- Top-level wrapper of `not_occ_replaceAllF_other` for `replaceAll`. -/
theorem not_occ_replaceAll_other {p r : List Char} {hd lt : Char}
    (hhead : p.head? = some hd) (hhdr : hd ∉ r)
    (hlast : p.getLast? = some lt) (hltr : lt ∉ r) (hrp : ¬ occ r p)
    (p₂ s : List Char) (hno : ¬ occ p s) : ¬ occ p (replaceAll p₂ r s) :=
  not_occ_replaceAllF_other hhead hhdr hlast hltr hrp p₂ s.length s hno

/-- A pattern is border-free when no proper nonempty prefix of it is also a
suffix of it; all placeholder tokens below are border-free, so occurrences of
a token in a template can never overlap each other. -/
def borderFree (p : List Char) : Prop :=
  ∀ i, i < p.length → 0 < i → p.take i ≠ p.drop (p.length - i)

instance (p : List Char) : Decidable (borderFree p) := by
  unfold borderFree; infer_instance

theorem not_occ_append_dropLast_of_head {p a : List Char} {hd : Char}
    (hhead : p.head? = some hd) (hda : hd ∉ a) :
    ¬ occ p (a ++ p.dropLast) := by
  rintro ⟨u, w, heq⟩
  rw [List.append_assoc] at heq
  rcases List.append_eq_append_iff.mp heq.symm with ⟨k, hk1, hk2⟩ | ⟨k, _, hk2⟩
  · cases k with
    | nil =>
      simp only [List.nil_append] at hk2
      have := congrArg List.length hk2
      simp only [List.length_append, List.length_dropLast] at this
      rcases head?_cases hhead with ⟨pt, rfl⟩
      simp at this
      omega
    | cons x k' =>
      rcases head?_cases hhead with ⟨pt, rfl⟩
      rw [List.cons_append, List.cons_append] at hk2
      injection hk2 with h1 _
      subst h1
      exact hda (by simp [hk1])
  · have := congrArg List.length hk2
    simp only [List.length_append, List.length_dropLast] at this
    rcases head?_cases hhead with ⟨pt, rfl⟩
    simp at this
    omega

theorem not_occ_append_dropLast_of_borderFree {p a : List Char}
    (hp : p ≠ []) (hbf : borderFree p) (hna : ¬ occ p a) :
    ¬ occ p (a ++ p.dropLast) := by
  rintro ⟨u, w, heq⟩
  rw [List.append_assoc] at heq
  rcases List.append_eq_append_iff.mp heq.symm with ⟨k, hk1, hk2⟩ | ⟨k, _, hk2⟩
  · cases k with
    | nil =>
      simp only [List.nil_append] at hk2
      have := congrArg List.length hk2
      simp only [List.length_append, List.length_dropLast] at this
      have hpl : 0 < p.length := List.length_pos.mpr hp
      omega
    | cons x k' =>
      rcases List.append_eq_append_iff.mp hk2 with ⟨j, hj1, _⟩ | ⟨j, hj1, hj2⟩
      · exact hna ⟨u, j, by rw [hk1, hj1, List.append_assoc]⟩
      · cases j with
        | nil =>
          rw [List.append_nil] at hj1
          exact hna ⟨u, [], by rw [hk1, ← hj1]; simp⟩
        | cons y j' =>
          have hjlen : (y :: j').length < p.length := by
            have := congrArg List.length hj1
            simp only [List.length_append, List.length_cons] at this ⊢
            omega
          have hjpos : 0 < (y :: j').length := by simp
          have hsuffix : p.drop (p.length - (y :: j').length) = y :: j' := by
            have hlen : (x :: k').length = p.length - (y :: j').length := by
              have := congrArg List.length hj1
              simp only [List.length_append] at this
              omega
            rw [← hlen, hj1, List.drop_left]
          have hbegins : begins (y :: j') p := by
            have hwhole : p.dropLast ++ [p.getLast hp] = p :=
              List.dropLast_append_getLast hp
            rcases (⟨w, hj2⟩ : begins (y :: j') p.dropLast) with ⟨t, ht⟩
            have h2 : p.dropLast ++ [p.getLast hp] =
                (y :: j') ++ (t ++ [p.getLast hp]) := by
              rw [ht, List.append_assoc]
            exact ⟨t ++ [p.getLast hp], hwhole.symm.trans h2⟩
          have htake : p.take (y :: j').length = y :: j' := by
            rcases hbegins with ⟨t, rfl⟩
            exact List.take_left _ _
          exact hbf (y :: j').length hjlen hjpos (by rw [htake, hsuffix])
  · have := congrArg List.length hk2
    simp only [List.length_append, List.length_dropLast] at this
    have hpl : 0 < p.length := List.length_pos.mpr hp
    omega

/-- Replacing `p` in `a ++ p ++ b` rewrites exactly the designated occurrence
and recurses on `b`, provided no occurrence of `p` starts inside `a`. -/
theorem replaceAll_splice {p v : List Char} {hd : Char}
    (hhead : p.head? = some hd) :
    ∀ (a b : List Char), ¬ occ p (a ++ p.dropLast) →
      replaceAll p v (a ++ p ++ b) = a ++ v ++ replaceAll p v b := by
  intro a
  induction a with
  | nil =>
    intro b _
    rcases head?_cases hhead with ⟨pt, rfl⟩
    have hcons : ([] : List Char) ++ (hd :: pt) ++ b = hd :: (pt ++ b) := by simp
    rw [hcons]
    simp only [replaceAll, List.length_cons, replaceAllF]
    rw [if_pos ((leads_iff _ _).mpr ⟨b, by simp⟩)]
    have hlen : pt.length + 1 - 1 = pt.length := by omega
    rw [hlen, List.drop_left]
    rw [replaceAllF_fuel_irrel (hd :: pt) v (pt ++ b).length b.length b
      (by simp) le_rfl]
    simp
  | cons c a' ih =>
    intro b hnocc
    have hnl : ¬ leads p (c :: (a' ++ p ++ b)) = true := by
      intro hld
      apply hnocc
      rcases (leads_iff _ _).mp hld with ⟨t, ht⟩
      have hS : c :: (a' ++ p ++ b) = (c :: a') ++ (p ++ b) := by simp
      have htake : (c :: a') ++ p.dropLast =
          ((c :: a') ++ (p ++ b)).take ((c :: a').length + (p.length - 1)) := by
        rw [List.take_append, List.take_append_of_le_length (Nat.sub_le _ _),
          List.dropLast_eq_take]
      refine occ_of_begins ?_
      rw [htake, ← hS, ht]
      have hN : (c :: a').length + (p.length - 1) =
          p.length + ((c :: a').length + (p.length - 1) - p.length) := by
        simp only [List.length_cons]
        omega
      rw [hN, List.take_append]
      exact ⟨_, rfl⟩
    have hcons : (c :: a') ++ p ++ b = c :: (a' ++ p ++ b) := by simp
    rw [hcons]
    simp only [replaceAll, List.length_cons, replaceAllF]
    rw [if_neg hnl]
    show c :: replaceAll p v (a' ++ p ++ b) = (c :: a') ++ v ++ replaceAll p v b
    rw [ih b (fun h => hnocc (by rw [List.cons_append]; exact occ_cons h))]
    simp

/-- Single-occurrence substitution: for a border-free pattern occurring in
neither `a` nor `b`, replace-all on `a ++ p ++ b` substitutes exactly once. -/
theorem replaceAll_once {p v a b : List Char} {hd : Char}
    (hhead : p.head? = some hd) (hbf : borderFree p)
    (hna : ¬ occ p a) (hnb : ¬ occ p b) :
    replaceAll p v (a ++ p ++ b) = a ++ v ++ b := by
  have hp : p ≠ [] := by
    rcases head?_cases hhead with ⟨pt, rfl⟩
    simp
  rw [replaceAll_splice hhead a b
    (not_occ_append_dropLast_of_borderFree hp hbf hna)]
  rw [replaceAll_of_not_occ hnb]

/-! Decimal rendering of numbers, modelling Python's format specifiers
`f-string {n:,}` (thousands separators) and `{x:0.Nf}` (fixed-point). -/

def digitList : List Char := ['0', '1', '2', '3', '4', '5', '6', '7', '8', '9']

def digChar (n : Nat) : Char := digitList.getD n '9'

theorem digChar_mem (n : Nat) : digChar n ∈ digitList := by
  unfold digChar
  rcases Nat.lt_or_ge n 10 with h | h
  · interval_cases n <;> decide
  · rw [List.getD_eq_default]
    · decide
    · simpa [digitList] using h

/-- Fuel-indexed most-significant-first decimal digit expansion. -/
def digitsAux : Nat → Nat → List Char → List Char
  | 0, _, acc => acc
  | f + 1, n, acc =>
    if n < 10 then digChar n :: acc
    else digitsAux f (n / 10) (digChar (n % 10) :: acc)

/-- Decimal digits of a natural number, most significant first. -/
def natDigits (n : Nat) : List Char := digitsAux (n + 1) n []

theorem digitsAux_mem :
    ∀ (f n : Nat) (acc : List Char) (c : Char),
      c ∈ digitsAux f n acc → c ∈ digitList ∨ c ∈ acc := by
  intro f
  induction f with
  | zero => intro n acc c h; exact Or.inr h
  | succ f ih =>
    intro n acc c h
    simp only [digitsAux] at h
    by_cases hn : n < 10
    · rw [if_pos hn] at h
      rcases List.mem_cons.mp h with rfl | h
      · exact Or.inl (digChar_mem n)
      · exact Or.inr h
    · rw [if_neg hn] at h
      rcases ih _ _ _ h with h' | h'
      · exact Or.inl h'
      · rcases List.mem_cons.mp h' with rfl | h''
        · exact Or.inl (digChar_mem _)
        · exact Or.inr h''

theorem natDigits_mem {n : Nat} {c : Char} (h : c ∈ natDigits n) :
    c ∈ digitList := by
  rcases digitsAux_mem _ _ _ _ h with h' | h'
  · exact h'
  · simp at h'

theorem digitsAux_ne_nil :
    ∀ (f n : Nat) (acc : List Char), acc ≠ [] → digitsAux f n acc ≠ [] := by
  intro f
  induction f with
  | zero => intro n acc h; exact h
  | succ f ih =>
    intro n acc h
    simp only [digitsAux]
    by_cases hn : n < 10
    · rw [if_pos hn]; simp
    · rw [if_neg hn]; exact ih _ _ (by simp)

theorem natDigits_ne_nil (n : Nat) : natDigits n ≠ [] := by
  unfold natDigits
  simp only [digitsAux]
  by_cases hn : n < 10
  · rw [if_pos hn]; simp
  · rw [if_neg hn]; exact digitsAux_ne_nil _ _ _ (by simp)

/-- Insert `,` after every three characters; applied to reversed digit lists
this realises grouping in threes from the right. -/
def group3 : List Char → List Char
  | a :: b :: c :: d :: rest => a :: b :: c :: ',' :: group3 (d :: rest)
  | l => l

theorem group3_mem : ∀ (l : List Char) (x : Char), x ∈ group3 l → x ∈ l ∨ x = ','
  | [], _, h => Or.inl h
  | [_], _, h => Or.inl h
  | [_, _], _, h => Or.inl h
  | [_, _, _], _, h => Or.inl h
  | a :: b :: c :: d :: rest, x, h => by
      have hg : group3 (a :: b :: c :: d :: rest) =
          a :: b :: c :: ',' :: group3 (d :: rest) := rfl
      rw [hg] at h
      simp only [List.mem_cons] at h
      rcases h with rfl | rfl | rfl | rfl | h
      · simp
      · simp
      · simp
      · exact Or.inr rfl
      · rcases group3_mem (d :: rest) x h with h' | h'
        · simp only [List.mem_cons] at h'
          simp only [List.mem_cons]
          tauto
        · exact Or.inr h'

theorem group3_ne_nil : ∀ (l : List Char), l ≠ [] → group3 l ≠ []
  | [], h, _ => absurd rfl h
  | [a], _, h => List.cons_ne_nil a [] h
  | [a, b], _, h => List.cons_ne_nil a [b] h
  | [a, b, c], _, h => List.cons_ne_nil a [b, c] h
  | a :: _ :: _ :: _ :: _, _, h => List.cons_ne_nil a _ h

/-- Model of the Python format `f"{n:,}"`: decimal digits with a comma
between groups of three, counting from the least significant digit. -/
def fmtComma (n : Nat) : List Char := (group3 (natDigits n).reverse).reverse

theorem fmtComma_mem {n : Nat} {c : Char} (h : c ∈ fmtComma n) :
    c ∈ digitList ∨ c = ',' := by
  rw [fmtComma, List.mem_reverse] at h
  rcases group3_mem _ _ h with h' | h'
  · rw [List.mem_reverse] at h'
    exact Or.inl (natDigits_mem h')
  · exact Or.inr h'

theorem fmtComma_ne_nil (n : Nat) : fmtComma n ≠ [] := by
  rw [fmtComma, ← List.length_pos, List.length_reverse, List.length_pos]
  exact group3_ne_nil _ (by
    rw [← List.length_pos, List.length_reverse, List.length_pos]
    exact natDigits_ne_nil n)

/-- Model of the Python fixed-point format `f"{x:0.df}"` on rationals (the
script applies it to language proportions; rounding is to `d` decimal
places). -/
def fmtFixed (d : Nat) (q : ℚ) : List Char :=
  let m : ℤ := Int.fdiv (2 * q.num * (10 : ℤ) ^ d + (q.den : ℤ)) (2 * (q.den : ℤ))
  let n : Nat := m.natAbs
  let fp := natDigits (n % 10 ^ d)
  (if m < 0 then ['-'] else []) ++ natDigits (n / 10 ^ d) ++
    (if d = 0 then [] else '.' :: (List.replicate (d - fp.length) '0' ++ fp))

theorem fmtFixed_mem {d : Nat} {q : ℚ} {c : Char} (h : c ∈ fmtFixed d q) :
    c ∈ digitList ∨ c = '.' ∨ c = '-' := by
  unfold fmtFixed at h
  simp only [List.mem_append] at h
  rcases h with (h | h) | h
  · split at h
    · exact Or.inr (Or.inr (by simpa using h))
    · simp at h
  · exact Or.inl (natDigits_mem h)
  · split at h
    · simp at h
    · rcases List.mem_cons.mp h with rfl | h'
      · exact Or.inr (Or.inl rfl)
      · rcases List.mem_append.mp h' with h'' | h''
        · have := List.eq_of_mem_replicate h''
          subst this
          exact Or.inl (by decide)
        · exact Or.inl (natDigits_mem h'')

/-! Data model: the statistics snapshot consumed by the two renderers.
Numbers awaited from `Stats` are modelled as already-fetched values; the
per-language data dictionary is modelled by `LangData`, where an absent
dictionary key (or an explicit `None` value, which `.get` does not
distinguish) is `none`. -/

/-- Value of one entry of the `languages` mapping: `size` (bytes), optional
display `color`, and `prop` (percentage, a number). -/
structure LangData where
  size : Option ℚ
  color : Option (List Char)
  prop : Option ℚ
deriving DecidableEq

/-- Statistics snapshot: one immutable-per-run view of the values the
renderers read from the `Stats` collaborator. -/
structure Snapshot where
  name : List Char
  stargazers : Nat
  forks : Nat
  total_contributions : Nat
  lines_changed : Nat × Nat
  views : Nat
  repos : List (List Char)
  languages : List (List Char × LangData)

/-! Placeholder tokens of the two templates. -/

def tokName : List Char := "\x7b\x7b name \x7d\x7d".data

def tokStars : List Char := "\x7b\x7b stars \x7d\x7d".data

def tokForks : List Char := "\x7b\x7b forks \x7d\x7d".data

def tokContributions : List Char := "\x7b\x7b contributions \x7d\x7d".data

def tokLinesChanged : List Char := "\x7b\x7b lines_changed \x7d\x7d".data

def tokViews : List Char := "\x7b\x7b views \x7d\x7d".data

def tokRepos : List Char := "\x7b\x7b repos \x7d\x7d".data

def tokProgress : List Char := "\x7b\x7b progress \x7d\x7d".data

def tokLangList : List Char := "\x7b\x7b lang_list \x7d\x7d".data

def overviewTokens : List (List Char) :=
  [tokName, tokStars, tokForks, tokContributions, tokLinesChanged, tokViews,
    tokRepos]

def allTokens : List (List Char) := overviewTokens ++ [tokProgress, tokLangList]

/-- Embedding of `generate_overview`: the seven sequential `re.sub` calls on
the overview template, in source order. -/
def generate_overview (tpl : List Char) (s : Snapshot) : List Char :=
  let o1 := replaceAll tokName s.name tpl
  let o2 := replaceAll tokStars (fmtComma s.stargazers) o1
  let o3 := replaceAll tokForks (fmtComma s.forks) o2
  let o4 := replaceAll tokContributions (fmtComma s.total_contributions) o3
  let changed := s.lines_changed.1 + s.lines_changed.2
  let o5 := replaceAll tokLinesChanged (fmtComma changed) o4
  let o6 := replaceAll tokViews (fmtComma s.views) o5
  replaceAll tokRepos (fmtComma s.repos.length) o6

/-! The languages renderer.  Python's `sorted(items, reverse=True, key=...)`
is a stable descending sort whose key comparisons raise `TypeError` whenever
a compared key is `None`; it is modelled by a stable descending insertion
sort in the `Except` monad whose comparator fails on `none`. -/

inductive SortErr where
  | typeError
deriving DecidableEq

/-- Comparison `y <= x` on sort keys; comparing `None` with anything (or with
`None`) raises `TypeError` in Python 3. -/
def cmpGE : Option ℚ → Option ℚ → Except SortErr Bool
  | some x, some y => .ok (decide (y ≤ x))
  | _, _ => .error .typeError

def insertByE {α : Type} (key : α → Option ℚ) (x : α) :
    List α → Except SortErr (List α)
  | [] => .ok [x]
  | y :: ys => do
      let b ← cmpGE (key x) (key y)
      if b then .ok (x :: y :: ys)
      else do
        let zs ← insertByE key x ys
        .ok (y :: zs)

def sortByE {α : Type} (key : α → Option ℚ) : List α → Except SortErr (List α)
  | [] => .ok []
  | x :: xs => do
      let rest ← sortByE key xs
      insertByE key x rest

/-- Total stable descending insertion sort, the behaviour of `sortByE` when
every key is present. -/
def insertByD {α : Type} (key : α → ℚ) (x : α) : List α → List α
  | [] => [x]
  | y :: ys => if key y ≤ key x then x :: y :: ys else y :: insertByD key x ys

def sortByD {α : Type} (key : α → ℚ) : List α → List α
  | [] => []
  | x :: xs => insertByD key x (sortByD key xs)

/-- The fixed stagger constant `delay_between` of the source. -/
def delay_between : Nat := 150

/-- Resolution of the optional display color, falling back to black. -/
def resolveColor (d : LangData) : List Char := d.color.getD "#000000".data

/-- One segment of the `progress` fragment, from the source f-string. -/
def progressSegment (d : LangData) : List Char :=
  "<span style=\"background-color: ".data ++ resolveColor d ++
    ";width: ".data ++ fmtFixed 3 (d.prop.getD 0) ++
    "%;\" class=\"progress-item\"></span>".data

/-- One item of the `lang_list` fragment, from the source f-string. -/
def langListItem (i : Nat) (lang : List Char) (d : LangData) : List Char :=
  "\n<li style=\"animation-delay: ".data ++ natDigits (i * delay_between) ++
    "ms;\">\n<svg xmlns=\"http://www.w3.org/2000/svg\" class=\"octicon\" style=\"fill:".data ++
    resolveColor d ++
    ";\"\nviewBox=\"0 0 16 16\" version=\"1.1\" width=\"16\" height=\"16\"><path\nfill-rule=\"evenodd\" d=\"M8 4a4 4 0 100 8 4 4 0 000-8z\"></path></svg>\n<span class=\"lang\">".data ++
    lang ++
    "</span>\n<span class=\"percent\">".data ++ fmtFixed 2 (d.prop.getD 0) ++
    "%</span>\n</li>\n\n".data

/-- Embedding of `generate_languages`: sort the language entries by `size`
descending, build the two fragments, substitute the two placeholders. -/
def generate_languages (tpl : List Char) (s : Snapshot) :
    Except SortErr (List Char) := do
  let sorted ← sortByE (fun t => t.2.size) s.languages
  let progress := (sorted.map (fun t => progressSegment t.2)).flatten
  let lang_list :=
    (sorted.enum.map (fun ie => langListItem ie.1 ie.2.1 ie.2.2)).flatten
  .ok (replaceAll tokLangList lang_list (replaceAll tokProgress progress tpl))

/-! Orchestration: filesystem state, permission validation, environment
parsing and the `main` entry point. -/

/-- Abstract filesystem state: the predicates the script queries (`isdir`,
`isfile`, `os.access` for read/write) plus directory modes. -/
structure FSt where
  isdir : List Char → Bool
  isfile : List Char → Bool
  readable : List Char → Bool
  writable : List Char → Bool
  mode : List Char → Nat

def genDir : List Char := "generated".data

def templatesDir : List Char := "templates".data

def overviewTpl : List Char := "templates/overview.svg".data

def languagesTpl : List Char := "templates/languages.svg".data

def overviewOut : List Char := "generated/overview.svg".data

def languagesOut : List Char := "generated/languages.svg".data

/-- Embedding of `generate_output_folder`: create `generated` with mode 777
when absent (a fresh 0o777 directory is then readable and writable), do
nothing when the directory already exists. -/
def generate_output_folder (fs : FSt) : FSt :=
  if fs.isdir genDir then fs
  else
    { fs with
      isdir := fun n => if n = genDir then true else fs.isdir n
      mode := fun n => if n = genDir then 0o777 else fs.mode n
      readable := fun n => if n = genDir then true else fs.readable n
      writable := fun n => if n = genDir then true else fs.writable n }

inductive MainErr where
  | templatesDirMissing
  | overviewTplMissing
  | languagesTplMissing
  | overviewTplUnreadable
  | languagesTplUnreadable
  | generatedUnwritable
  | tokenMissing
  | actorMissing
deriving DecidableEq

/-- Embedding of `check_permissions`, with its checks in source order. -/
def check_permissions (fs : FSt) : Except MainErr Unit :=
  if !fs.isdir templatesDir then .error .templatesDirMissing
  else if !fs.isfile overviewTpl then .error .overviewTplMissing
  else if !fs.isfile languagesTpl then .error .languagesTplMissing
  else if !fs.readable overviewTpl then .error .overviewTplUnreadable
  else if !fs.readable languagesTpl then .error .languagesTplUnreadable
  else if !fs.writable genDir then .error .generatedUnwritable
  else .ok ()

/-- Characters stripped by Python's `str.strip()`: exactly the 29 code
points for which `str.isspace()` is true (ASCII whitespace, the information
separators 1C-1F, NEL, NBSP, and the Unicode space separators). -/
def pySpace (c : Char) : Bool :=
  [' ', '\t', '\n', '\r', '\x0b', '\x0c', '\x1c', '\x1d', '\x1e', '\x1f',
    '\x85', '\xa0', '\u1680', '\u2000', '\u2001', '\u2002', '\u2003',
    '\u2004', '\u2005', '\u2006', '\u2007', '\u2008', '\u2009', '\u200a',
    '\u2028', '\u2029', '\u202f', '\u205f', '\u3000'].contains c

def stripLeft : List Char → List Char
  | [] => []
  | c :: s => if pySpace c then stripLeft s else c :: s

/-- Model of Python `str.strip()`: drop whitespace from both ends. -/
def pyStrip (s : List Char) : List Char :=
  (stripLeft (stripLeft s).reverse).reverse

/-- ASCII model of Python `str.lower()`.  It is extensionally faithful for
the one use made of it — comparison of the lowercased string against the
ASCII literal `"false"` — because no character outside `A`-`Z` and `a`-`z`
lowercases to any of the letters `f`, `a`, `l`, `s`, `e`, and the only code
point whose `lower()` is not a single character (U+0130) produces characters
outside that set as well, so the comparison's outcome agrees with full
Unicode lowercasing on every input. -/
def lowerChar (c : Char) : Char :=
  if 'A' ≤ c ∧ c ≤ 'Z' then Char.ofNat (c.toNat + 32) else c

def pyLower (s : List Char) : List Char := s.map lowerChar

/-- The "exclude forked repos" flag computed by `main` from the raw value of
`EXCLUDE_FORKED_REPOS`: `not not raw and raw.strip().lower() != "false"`. -/
def ignoreForkedFlag : Option (List Char) → Bool
  | none => false
  | some s =>
    if s = [] then false
    else if pyLower (pyStrip s) = "false".data then false
    else true

/-- The flag as worded by the spec and claim C1: present, non-empty, and not
case-insensitively equal to the literal text "false" — with no whitespace
stripping.  Kept separate so the two readings can be compared. -/
def claimedForkedFlag : Option (List Char) → Bool
  | none => false
  | some s =>
    if s = [] then false
    else if pyLower s = "false".data then false
    else true

/-- Model of Python `str.split(",")` (note `"".split(",") == [""]`). -/
def splitComma : List Char → List (List Char)
  | [] => [[]]
  | c :: rest =>
    if c = ',' then [] :: splitComma rest
    else
      match splitComma rest with
      | [] => [[c]]
      | g :: gs => (c :: g) :: gs

/-- Parsing of the optional comma-separated exclusion variables; the Python
set comprehension is modelled as the list of stripped entries. -/
def parseExcl : Option (List Char) → Option (List (List Char))
  | none => none
  | some s => if s = [] then none else some ((splitComma s).map pyStrip)

/-- Environment variables read by `main`; `none` models an unset variable. -/
structure Env where
  access_token : Option (List Char)
  github_actor : Option (List Char)
  excluded : Option (List Char)
  excluded_langs : Option (List Char)
  exclude_forked_repos : Option (List Char)

/-- Observable effects of a run of `main`, in order of occurrence. -/
inductive Ev where
  | dirCreated
  | sessionOpened
  | statsConstructed (user token : List Char)
      (excludeRepos excludeLangs : Option (List (List Char)))
      (ignoreForked : Bool)
  | wroteOutput (path : List Char)
deriving DecidableEq

/-- Embedding of `main`: prepare the output folder, validate permissions,
read and validate the environment, then open the session, construct the
`Stats` provider and run both renderers (which write the two outputs).  The
returned event list records the effects that actually happened before the
run ended. -/
def main (env : Env) (fs : FSt) : List Ev × Except MainErr Unit :=
  let ev0 : List Ev := if fs.isdir genDir then [] else [Ev.dirCreated]
  let fs1 := generate_output_folder fs
  match check_permissions fs1 with
  | .error e => (ev0, .error e)
  | .ok _ =>
    match env.access_token with
    | none => (ev0, .error .tokenMissing)
    | some tok =>
      if tok = [] then (ev0, .error .tokenMissing)
      else
        match env.github_actor with
        | none => (ev0, .error .actorMissing)
        | some user =>
          let excluded_repos := parseExcl env.excluded
          let excluded_langs := parseExcl env.excluded_langs
          let flag := ignoreForkedFlag env.exclude_forked_repos
          (ev0 ++ [Ev.sessionOpened,
            Ev.statsConstructed user tok excluded_repos excluded_langs flag,
            Ev.wroteOutput languagesOut, Ev.wroteOutput overviewOut],
            .ok ())

/-! Generic consequences of the scanning lemmas, specialised towards the
placeholder tokens (which all start with a brace and end with a brace). -/

theorem not_occ_of_head_notin {p s : List Char} {hd : Char}
    (hhead : p.head? = some hd) (h : hd ∉ s) : ¬ occ p s :=
  fun ho => h (head_mem_of_occ hhead ho)

theorem begins_take {p x y : List Char} (h : begins p (x ++ y)) :
    begins (x.take p.length) p := by
  rcases h with ⟨t, ht⟩
  have hx : x = (p ++ t).take x.length := by rw [← ht, List.take_left]
  rcases le_or_lt p.length x.length with hle | hlt
  · have : x.take p.length = p := by
      rw [hx, List.take_take, Nat.min_eq_left hle,
        List.take_append_of_le_length le_rfl, List.take_length]
    rw [this]
    exact ⟨[], by simp⟩
  · have h1 : x.take p.length = x := List.take_of_length_le (Nat.le_of_lt hlt)
    have h2 : x = p.take x.length := by
      conv_lhs => rw [hx]
      rw [List.take_append_of_le_length (Nat.le_of_lt hlt)]
    rw [h1]
    refine ⟨p.drop x.length, ?_⟩
    conv_lhs => rw [← List.take_append_drop x.length p]
    rw [← h2]

/-- No occurrence of `p` inside `a ++ m ++ b` when `p`'s head character
occurs in neither `a` nor `b`, `p` does not occur inside `m`, and no short
suffix of `m` is a prefix of `p`. -/
theorem not_occ_mid {p m a b : List Char} {hd : Char}
    (hhead : p.head? = some hd) (hda : hd ∉ a) (hdb : hd ∉ b)
    (hmid : ∀ i, i < m.length → (m.drop i).length < p.length →
      ¬ begins (m.drop i) p)
    (hpm : ¬ occ p m) (hm : m ≠ []) : ¬ occ p (a ++ m ++ b) := by
  rintro ⟨u, w, heq⟩
  rw [List.append_assoc, List.append_assoc] at heq
  have hcentral : ∀ k j : List Char, j ≠ [] → m = k ++ j →
      begins p (j ++ b) → False := by
    intro k j hj hm_eq hb
    have htk := begins_take hb
    rcases le_or_lt p.length j.length with hle | hlt
    · have hlen : (j.take p.length).length = p.length := by
        rw [List.length_take]
        omega
      rcases htk with ⟨t, htEq⟩
      have ht0 : t = [] := by
        have hl := congrArg List.length htEq
        rw [List.length_append, hlen] at hl
        have : t.length = 0 := by omega
        exact List.length_eq_zero.mp this
      subst ht0
      rw [List.append_nil] at htEq
      have hj2 : j = p ++ j.drop p.length := by
        conv_lhs => rw [← List.take_append_drop p.length j]
        rw [← htEq]
      refine hpm ⟨k, j.drop p.length, ?_⟩
      conv_lhs => rw [hm_eq, hj2]
      rw [List.append_assoc]
    · have hjt : j.take p.length = j := List.take_of_length_le (Nat.le_of_lt hlt)
      rw [hjt] at htk
      have hi : m.drop k.length = j := by rw [hm_eq, List.drop_left]
      have hklt : k.length < m.length := by
        have := congrArg List.length hm_eq
        rw [List.length_append] at this
        have hjpos : 0 < j.length := List.length_pos.mpr hj
        omega
      have hjlen : (m.drop k.length).length < p.length := by rw [hi]; exact hlt
      exact hmid k.length hklt hjlen (by rw [hi]; exact htk)
  rcases List.append_eq_append_iff.mp heq.symm with ⟨k, hk1, hk2⟩ | ⟨k, _, hk2⟩
  · cases k with
    | nil =>
      simp only [List.nil_append] at hk2
      exact hcentral [] m hm (by simp) ⟨w, hk2.symm⟩
    | cons x k' =>
      rcases head?_cases hhead with ⟨pt, rfl⟩
      rw [List.cons_append, List.cons_append] at hk2
      injection hk2 with h1 _
      subst h1
      exact hda (by simp [hk1])
  · rcases List.append_eq_append_iff.mp hk2.symm with ⟨j, hj1, hj2⟩ | ⟨j, _, hj2⟩
    · cases j with
      | nil =>
        simp only [List.nil_append] at hj2
        exact absurd (head_mem_of_begins hhead ⟨w, hj2.symm⟩) hdb
      | cons y j' =>
        exact hcentral k (y :: j') (by simp) hj1 ⟨w, hj2.symm⟩
    · refine absurd (head_mem_of_occ hhead (⟨j, w, ?_⟩ : occ p b)) hdb
      rw [hj2, List.append_assoc]

/-- Numeric replacement strings: nonempty, made of digits and commas only. -/
def NumStr (r : List Char) : Prop :=
  r ≠ [] ∧ ∀ c ∈ r, c ∈ digitList ∨ c = ','

theorem fmtComma_numStr (n : Nat) : NumStr (fmtComma n) :=
  ⟨fmtComma_ne_nil n, fun _ h => fmtComma_mem h⟩

/-- Tokens contain no digit and no comma, so a numeric string can neither
occur inside a token nor contribute its boundary characters. -/
theorem numStr_safe {r tk : List Char} (hr : NumStr r)
    (htk : ∀ c ∈ tk, ¬(c ∈ digitList ∨ c = ',')) :
    '\x7b' ∉ r ∧ '\x7d' ∉ r ∧ ¬ occ r tk := by
  obtain ⟨hne, hchars⟩ := hr
  refine ⟨fun hin => absurd (hchars _ hin) (by decide),
    fun hin => absurd (hchars _ hin) (by decide), ?_⟩
  intro ho
  cases r with
  | nil => exact hne rfl
  | cons c r' =>
    have hmem : c ∈ tk := mem_of_occ ho (by simp)
    exact htk c hmem (hchars c (by simp))

theorem not_occ_replaceAll_self_num {tk r : List Char} (hr : NumStr r)
    (hhead : tk.head? = some '\x7b') (hlast : tk.getLast? = some '\x7d')
    (htk : ∀ c ∈ tk, ¬(c ∈ digitList ∨ c = ',')) (s : List Char) :
    ¬ occ tk (replaceAll tk r s) := by
  obtain ⟨hb, hd, ho⟩ := numStr_safe hr htk
  exact not_occ_replaceAll_self hhead hb hlast hd ho s

theorem not_occ_replaceAll_other_num {tk r : List Char} (hr : NumStr r)
    (hhead : tk.head? = some '\x7b') (hlast : tk.getLast? = some '\x7d')
    (htk : ∀ c ∈ tk, ¬(c ∈ digitList ∨ c = ',')) (p₂ s : List Char)
    (h : ¬ occ tk s) : ¬ occ tk (replaceAll p₂ r s) := by
  obtain ⟨hb, hd, ho⟩ := numStr_safe hr htk
  exact not_occ_replaceAll_other hhead hb hlast hd ho p₂ s h

/-! Properties of the sorting step of the languages renderer. -/

theorem cmpGE_none_left (b : Option ℚ) : cmpGE none b = .error .typeError := by
  cases b <;> rfl

theorem cmpGE_none_right (a : Option ℚ) : cmpGE a none = .error .typeError := by
  cases a <;> rfl

theorem cmpGE_some_some (x y : ℚ) :
    cmpGE (some x) (some y) = .ok (decide (y ≤ x)) := rfl

theorem insertByD_perm {α : Type} (key : α → ℚ) (x : α) :
    ∀ (l : List α), (insertByD key x l).Perm (x :: l) := by
  intro l
  induction l with
  | nil => simp [insertByD]
  | cons y ys ih =>
    simp only [insertByD]
    by_cases h : key y ≤ key x
    · rw [if_pos h]
    · rw [if_neg h]
      exact (ih.cons y).trans (List.Perm.swap x y ys)

theorem sortByD_perm {α : Type} (key : α → ℚ) :
    ∀ (l : List α), (sortByD key l).Perm l := by
  intro l
  induction l with
  | nil => simp [sortByD]
  | cons x xs ih =>
    simp only [sortByD]
    exact (insertByD_perm key x (sortByD key xs)).trans (ih.cons x)

theorem mem_sortByD {α : Type} {key : α → ℚ} {l : List α} {y : α}
    (h : y ∈ sortByD key l) : y ∈ l :=
  (sortByD_perm key l).mem_iff.mp h

theorem insertByE_eq_D {α : Type} {key : α → Option ℚ} {x : α}
    (hx : (key x).isSome) :
    ∀ {l : List α}, (∀ y ∈ l, (key y).isSome) →
      insertByE key x l = .ok (insertByD (fun a => (key a).getD 0) x l) := by
  intro l
  induction l with
  | nil => intro _; rfl
  | cons y ys ih =>
    intro hall
    obtain ⟨kx, hkx⟩ := Option.isSome_iff_exists.mp hx
    obtain ⟨ky, hky⟩ := Option.isSome_iff_exists.mp (hall y (by simp))
    simp only [insertByE, insertByD, hkx, hky, cmpGE_some_some, Option.getD_some]
    by_cases h : ky ≤ kx
    · rw [decide_eq_true h, if_pos h]
      rfl
    · rw [decide_eq_false h, if_neg h]
      show Except.bind (insertByE key x ys)
        (fun zs => Except.ok (y :: zs)) = _
      rw [ih (fun z hz => hall z (by simp [hz]))]
      rfl

theorem sortByE_eq_D {α : Type} {key : α → Option ℚ} :
    ∀ {l : List α}, (∀ y ∈ l, (key y).isSome) →
      sortByE key l = .ok (sortByD (fun a => (key a).getD 0) l) := by
  intro l
  induction l with
  | nil => intro _; rfl
  | cons x xs ih =>
    intro hall
    simp only [sortByE, sortByD]
    rw [ih (fun z hz => hall z (by simp [hz]))]
    show insertByE key x (sortByD (fun a => (key a).getD 0) xs) = _
    exact insertByE_eq_D (hall x (by simp))
      (fun z hz => hall z (by simp [mem_sortByD hz]))

theorem insertByD_pairwise {α : Type} (key : α → ℚ) (idx : α → Nat) (x : α) :
    ∀ (l : List α),
      List.Pairwise (fun a b =>
        key b < key a ∨ (key a = key b ∧ idx a < idx b)) l →
      (∀ y ∈ l, idx x < idx y) →
      List.Pairwise (fun a b =>
        key b < key a ∨ (key a = key b ∧ idx a < idx b)) (insertByD key x l) := by
  intro l
  induction l with
  | nil => intro _ _; simp [insertByD]
  | cons y ys ih =>
    intro hp hidx
    rw [List.pairwise_cons] at hp
    obtain ⟨hRy, hpys⟩ := hp
    simp only [insertByD]
    by_cases h : key y ≤ key x
    · rw [if_pos h]
      refine List.Pairwise.cons ?_ (List.Pairwise.cons hRy hpys)
      intro z hz
      rcases List.mem_cons.mp hz with rfl | hz'
      · rcases lt_or_eq_of_le h with hlt | heq
        · exact Or.inl hlt
        · exact Or.inr ⟨heq.symm, hidx z (by simp)⟩
      · rcases hRy z hz' with hlt | ⟨heq, _⟩
        · exact Or.inl (lt_of_lt_of_le hlt h)
        · rcases lt_or_eq_of_le (le_of_eq_of_le heq.symm h) with hlt | heq2
          · exact Or.inl hlt
          · exact Or.inr ⟨heq2.symm, hidx z (List.mem_cons_of_mem y hz')⟩
    · rw [if_neg h]
      refine List.Pairwise.cons ?_
        (ih hpys (fun z hz => hidx z (List.mem_cons_of_mem y hz)))
      intro z hz
      have hz' : z ∈ x :: ys := (insertByD_perm key x ys).mem_iff.mp hz
      rcases List.mem_cons.mp hz' with rfl | hz''
      · exact Or.inl (lt_of_not_le h)
      · exact hRy z hz''

/-- A stable descending sort: in the output, a pair appearing in order either
strictly decreases in key, or has equal keys and preserves the order of the
attached indices — provided the indices were strictly increasing at input. -/
theorem sortByD_pairwise_stable {α : Type} (key : α → ℚ) (idx : α → Nat) :
    ∀ (l : List α), List.Pairwise (fun a b => idx a < idx b) l →
      List.Pairwise (fun a b =>
        key b < key a ∨ (key a = key b ∧ idx a < idx b)) (sortByD key l) := by
  intro l
  induction l with
  | nil => intro _; simp [sortByD]
  | cons x xs ih =>
    intro hp
    rw [List.pairwise_cons] at hp
    obtain ⟨hidx, hpxs⟩ := hp
    simp only [sortByD]
    exact insertByD_pairwise key idx x _ (ih hpxs)
      (fun y hy => hidx y (mem_sortByD hy))

theorem enumFrom_pairwise {α : Type} :
    ∀ (n : Nat) (l : List α),
      List.Pairwise (fun a b : Nat × α => a.1 < b.1) (List.enumFrom n l) := by
  intro n l
  induction l generalizing n with
  | nil => simp
  | cons x xs ih =>
    simp only [List.enumFrom]
    refine List.Pairwise.cons ?_ (ih (n + 1))
    intro b hb
    have := List.le_fst_of_mem_enumFrom hb
    omega

theorem enum_pairwise {α : Type} (l : List α) :
    List.Pairwise (fun a b : Nat × α => a.1 < b.1) l.enum :=
  enumFrom_pairwise 0 l

theorem sortByE_length {α : Type} {key : α → Option ℚ} {l l' : List α}
    (hall : ∀ y ∈ l, (key y).isSome) (h : sortByE key l = .ok l') :
    l'.length = l.length := by
  rw [sortByE_eq_D hall] at h
  injection h with h
  rw [← h]
  exact (sortByD_perm _ l).length_eq

theorem insertByE_error_of_none {α : Type} {key : α → Option ℚ} {x : α}
    (hx : key x = none) :
    ∀ {l : List α}, l ≠ [] → insertByE key x l = .error .typeError := by
  intro l hl
  cases l with
  | nil => exact absurd rfl hl
  | cons y ys =>
    simp only [insertByE, hx, cmpGE_none_left]
    rfl

/-- Python `sorted` raises `TypeError` as soon as a `None` key is compared;
with at least two entries and some `None` key, the sort fails. -/
theorem sortByE_error {α : Type} (key : α → Option ℚ) :
    ∀ (l : List α), 2 ≤ l.length → (∃ e ∈ l, key e = none) →
      sortByE key l = .error .typeError := by
  intro l
  induction l with
  | nil => intro h _; simp at h
  | cons x xs ih =>
    intro hlen hex
    by_cases hxs : ∃ e ∈ xs, key e = none
    · rcases lt_or_ge xs.length 2 with hl | hl
      · obtain ⟨e, he, hke⟩ := hxs
        have hxs1 : xs = [e] := by
          cases xs with
          | nil => simp at he
          | cons a as =>
            cases as with
            | nil =>
              simp only [List.mem_singleton] at he
              rw [he]
            | cons b bs =>
              simp only [List.length_cons] at hl
              omega
        subst hxs1
        show Except.bind (sortByE key [e]) (insertByE key x) = _
        have h1 : sortByE key [e] = .ok [e] := rfl
        rw [h1]
        show insertByE key x [e] = _
        simp only [insertByE, hke, cmpGE_none_right]
        rfl
      · show Except.bind (sortByE key xs) (insertByE key x) = _
        rw [ih hl hxs]
        rfl
    · push_neg at hxs
      obtain ⟨e, he, hke⟩ := hex
      have hx : key x = none := by
        rcases List.mem_cons.mp he with rfl | h
        · exact hke
        · exact absurd hke (hxs e h)
      have hall : ∀ y ∈ xs, (key y).isSome :=
        fun y hy => Option.ne_none_iff_isSome.mp (hxs y hy)
      show Except.bind (sortByE key xs) (insertByE key x) = _
      rw [sortByE_eq_D hall]
      show insertByE key x (sortByD (fun a => (key a).getD 0) xs) = _
      have hne : sortByD (fun a => (key a).getD 0) xs ≠ [] := by
        have hlen2 : xs.length ≠ 0 := by
          simp only [List.length_cons] at hlen
          omega
        intro hnil
        have := (sortByD_perm (fun a => (key a).getD 0) xs).length_eq
        rw [hnil] at this
        simp at this
        exact hlen2 (by rw [← this])
      exact insertByE_error_of_none hx hne

/-! Character analysis of the generated fragments, used to show that the
substituted fragments can never recreate a placeholder token. -/

/-- Well-formedness of one language entry as far as template substitution is
concerned: the language name and the optional color contain no braces (so the
generated fragments cannot recreate a placeholder) and no backslash (so the
fragments are in the domain where `replaceAll` is faithful to `re.sub`,
whose replacement-template processing is the identity exactly on
backslash-free strings). -/
def LangOK (e : List Char × LangData) : Prop :=
  '\x7b' ∉ e.1 ∧ '\x7d' ∉ e.1 ∧ '\\' ∉ e.1 ∧
    ∀ c, e.2.color = some c → '\x7b' ∉ c ∧ '\x7d' ∉ c ∧ '\\' ∉ c

instance (e : List Char × LangData) : Decidable (LangOK e) :=
  match hc : e.2.color with
  | none =>
    decidable_of_iff ('\x7b' ∉ e.1 ∧ '\x7d' ∉ e.1 ∧ '\\' ∉ e.1) (by
      constructor
      · rintro ⟨ha, hb, hs⟩
        refine ⟨ha, hb, hs, fun c h => ?_⟩
        rw [hc] at h
        cases h
      · rintro ⟨ha, hb, hs, _⟩
        exact ⟨ha, hb, hs⟩)
  | some c0 =>
    decidable_of_iff
      ('\x7b' ∉ e.1 ∧ '\x7d' ∉ e.1 ∧ '\\' ∉ e.1 ∧
        '\x7b' ∉ c0 ∧ '\x7d' ∉ c0 ∧ '\\' ∉ c0) (by
      constructor
      · rintro ⟨ha, hb, hs, hc1, hc2, hc3⟩
        refine ⟨ha, hb, hs, fun c h => ?_⟩
        rw [hc] at h
        injection h with h
        subst h
        exact ⟨hc1, hc2, hc3⟩
      · rintro ⟨ha, hb, hs, hcc⟩
        exact ⟨ha, hb, hs, (hcc c0 hc).1, (hcc c0 hc).2.1, (hcc c0 hc).2.2⟩)

theorem resolveColor_brace {d : LangData}
    (h : ∀ c, d.color = some c → '\x7b' ∉ c ∧ '\x7d' ∉ c) :
    '\x7b' ∉ resolveColor d ∧ '\x7d' ∉ resolveColor d := by
  cases hc : d.color with
  | none =>
    simp only [resolveColor, hc, Option.getD_none]
    decide
  | some c =>
    simp only [resolveColor, hc, Option.getD_some]
    exact h c hc

theorem fmtFixed_brace (d : Nat) (q : ℚ) :
    '\x7b' ∉ fmtFixed d q ∧ '\x7d' ∉ fmtFixed d q :=
  ⟨fun hin => absurd (fmtFixed_mem hin) (by decide),
    fun hin => absurd (fmtFixed_mem hin) (by decide)⟩

theorem natDigits_brace (n : Nat) :
    '\x7b' ∉ natDigits n ∧ '\x7d' ∉ natDigits n :=
  ⟨fun hin => absurd (natDigits_mem hin) (by decide),
    fun hin => absurd (natDigits_mem hin) (by decide)⟩

theorem notin_append {c : Char} {x y : List Char} (hx : c ∉ x) (hy : c ∉ y) :
    c ∉ x ++ y := fun h => (List.mem_append.mp h).elim hx hy

theorem progressSegment_brace {e : List Char × LangData} (h : LangOK e) :
    '\x7b' ∉ progressSegment e.2 ∧ '\x7d' ∉ progressSegment e.2 := by
  obtain ⟨_, _, _, hcol⟩ := h
  obtain ⟨hc1, hc2⟩ :=
    resolveColor_brace (fun c hc => ⟨(hcol c hc).1, (hcol c hc).2.1⟩)
  obtain ⟨hf1, hf2⟩ := fmtFixed_brace 3 (e.2.prop.getD 0)
  constructor
  · simp only [progressSegment]
    exact notin_append (notin_append (notin_append (notin_append
      (by decide) hc1) (by decide)) hf1) (by decide)
  · simp only [progressSegment]
    exact notin_append (notin_append (notin_append (notin_append
      (by decide) hc2) (by decide)) hf2) (by decide)

theorem langListItem_brace {i : Nat} {e : List Char × LangData} (h : LangOK e) :
    '\x7b' ∉ langListItem i e.1 e.2 ∧ '\x7d' ∉ langListItem i e.1 e.2 := by
  obtain ⟨hl1, hl2, _, hcol⟩ := h
  obtain ⟨hc1, hc2⟩ :=
    resolveColor_brace (fun c hc => ⟨(hcol c hc).1, (hcol c hc).2.1⟩)
  obtain ⟨hf1, hf2⟩ := fmtFixed_brace 2 (e.2.prop.getD 0)
  obtain ⟨hd1, hd2⟩ := natDigits_brace (i * delay_between)
  constructor
  · simp only [langListItem]
    exact notin_append (notin_append (notin_append (notin_append (notin_append
      (notin_append (notin_append (notin_append (by decide) hd1) (by decide))
        hc1) (by decide)) hl1) (by decide)) hf1) (by decide)
  · simp only [langListItem]
    exact notin_append (notin_append (notin_append (notin_append (notin_append
      (notin_append (notin_append (notin_append (by decide) hd2) (by decide))
        hc2) (by decide)) hl2) (by decide)) hf2) (by decide)

theorem mem_flatten_map {α : Type} {f : α → List Char} {l : List α} {c : Char}
    (h : c ∈ (l.map f).flatten) : ∃ e ∈ l, c ∈ f e := by
  rw [List.mem_flatten] at h
  obtain ⟨s, hs, hcs⟩ := h
  rw [List.mem_map] at hs
  obtain ⟨e, he, rfl⟩ := hs
  exact ⟨e, he, hcs⟩

/-- Full substitution for the overview badge: under the name-validity
conditions, no overview placeholder survives in the rendered output, for any
template. -/
theorem overview_no_token (tpl : List Char) (s : Snapshot)
    (h1 : '\x7b' ∉ s.name) (h2 : '\x7d' ∉ s.name) (h3 : ¬ occ s.name tokName) :
    ∀ tk ∈ overviewTokens, ¬ occ tk (generate_overview tpl s) := by
  intro tk htk
  simp only [generate_overview]
  simp only [overviewTokens, List.mem_cons, List.not_mem_nil, or_false] at htk
  rcases htk with rfl | rfl | rfl | rfl | rfl | rfl | rfl
  · refine not_occ_replaceAll_other_num (fmtComma_numStr _) (by decide)
      (by decide) (by decide) _ _ ?_
    refine not_occ_replaceAll_other_num (fmtComma_numStr _) (by decide)
      (by decide) (by decide) _ _ ?_
    refine not_occ_replaceAll_other_num (fmtComma_numStr _) (by decide)
      (by decide) (by decide) _ _ ?_
    refine not_occ_replaceAll_other_num (fmtComma_numStr _) (by decide)
      (by decide) (by decide) _ _ ?_
    refine not_occ_replaceAll_other_num (fmtComma_numStr _) (by decide)
      (by decide) (by decide) _ _ ?_
    refine not_occ_replaceAll_other_num (fmtComma_numStr _) (by decide)
      (by decide) (by decide) _ _ ?_
    exact not_occ_replaceAll_self (show tokName.head? = some '\x7b' by decide)
      h1 (show tokName.getLast? = some '\x7d' by decide) h2 h3 _
  · refine not_occ_replaceAll_other_num (fmtComma_numStr _) (by decide)
      (by decide) (by decide) _ _ ?_
    refine not_occ_replaceAll_other_num (fmtComma_numStr _) (by decide)
      (by decide) (by decide) _ _ ?_
    refine not_occ_replaceAll_other_num (fmtComma_numStr _) (by decide)
      (by decide) (by decide) _ _ ?_
    refine not_occ_replaceAll_other_num (fmtComma_numStr _) (by decide)
      (by decide) (by decide) _ _ ?_
    refine not_occ_replaceAll_other_num (fmtComma_numStr _) (by decide)
      (by decide) (by decide) _ _ ?_
    exact not_occ_replaceAll_self_num (fmtComma_numStr _) (by decide)
      (by decide) (by decide) _
  · refine not_occ_replaceAll_other_num (fmtComma_numStr _) (by decide)
      (by decide) (by decide) _ _ ?_
    refine not_occ_replaceAll_other_num (fmtComma_numStr _) (by decide)
      (by decide) (by decide) _ _ ?_
    refine not_occ_replaceAll_other_num (fmtComma_numStr _) (by decide)
      (by decide) (by decide) _ _ ?_
    refine not_occ_replaceAll_other_num (fmtComma_numStr _) (by decide)
      (by decide) (by decide) _ _ ?_
    exact not_occ_replaceAll_self_num (fmtComma_numStr _) (by decide)
      (by decide) (by decide) _
  · refine not_occ_replaceAll_other_num (fmtComma_numStr _) (by decide)
      (by decide) (by decide) _ _ ?_
    refine not_occ_replaceAll_other_num (fmtComma_numStr _) (by decide)
      (by decide) (by decide) _ _ ?_
    refine not_occ_replaceAll_other_num (fmtComma_numStr _) (by decide)
      (by decide) (by decide) _ _ ?_
    exact not_occ_replaceAll_self_num (fmtComma_numStr _) (by decide)
      (by decide) (by decide) _
  · refine not_occ_replaceAll_other_num (fmtComma_numStr _) (by decide)
      (by decide) (by decide) _ _ ?_
    refine not_occ_replaceAll_other_num (fmtComma_numStr _) (by decide)
      (by decide) (by decide) _ _ ?_
    exact not_occ_replaceAll_self_num (fmtComma_numStr _) (by decide)
      (by decide) (by decide) _
  · refine not_occ_replaceAll_other_num (fmtComma_numStr _) (by decide)
      (by decide) (by decide) _ _ ?_
    exact not_occ_replaceAll_self_num (fmtComma_numStr _) (by decide)
      (by decide) (by decide) _
  · exact not_occ_replaceAll_self_num (fmtComma_numStr _) (by decide)
      (by decide) (by decide) _

/-- Full substitution for the languages badge: with all sizes present (so
the sort succeeds), a nonempty language mapping and well-formed names and
colors, the renderer succeeds and neither placeholder survives, for any
template. -/
theorem languages_ok_no_token (tpl : List Char) (s : Snapshot)
    (hne : s.languages ≠ [])
    (hsz : ∀ e ∈ s.languages, (e.2.size).isSome)
    (hok : ∀ e ∈ s.languages, LangOK e) :
    ∃ out, generate_languages tpl s = .ok out ∧
      ¬ occ tokProgress out ∧ ¬ occ tokLangList out := by
  have hsort : sortByE (fun t : List Char × LangData => t.2.size) s.languages =
      .ok (sortByD (fun t : List Char × LangData => (t.2.size).getD 0)
        s.languages) := sortByE_eq_D hsz
  have hmem : ∀ e ∈ sortByD (fun t : List Char × LangData => (t.2.size).getD 0)
      s.languages, e ∈ s.languages := fun _ he => mem_sortByD he
  have hsne : sortByD (fun t : List Char × LangData => (t.2.size).getD 0)
      s.languages ≠ [] := by
    intro h0
    have hpl := (sortByD_perm
      (fun t : List Char × LangData => (t.2.size).getD 0) s.languages).length_eq
    rw [h0] at hpl
    exact hne (List.length_eq_zero.mp hpl.symm)
  generalize hgen : sortByD
    (fun t : List Char × LangData => (t.2.size).getD 0) s.languages = sorted
      at hsort hmem hsne
  cases sorted with
  | nil => exact absurd rfl hsne
  | cons e0 rest =>
    have hPb1 : '\x7b' ∉
        ((e0 :: rest).map (fun t => progressSegment t.2)).flatten := by
      intro hc
      obtain ⟨e, he, hce⟩ := mem_flatten_map hc
      exact (progressSegment_brace (hok e (hmem e he))).1 hce
    have hPb2 : '\x7d' ∉
        ((e0 :: rest).map (fun t => progressSegment t.2)).flatten := by
      intro hc
      obtain ⟨e, he, hce⟩ := mem_flatten_map hc
      exact (progressSegment_brace (hok e (hmem e he))).2 hce
    have hLb1 : '\x7b' ∉ ((e0 :: rest).enum.map
        (fun ie => langListItem ie.1 ie.2.1 ie.2.2)).flatten := by
      intro hc
      obtain ⟨ie, hie, hce⟩ := mem_flatten_map hc
      exact (langListItem_brace
        (hok ie.2 (hmem ie.2 (List.snd_mem_of_mem_enum hie)))).1 hce
    have hLb2 : '\x7d' ∉ ((e0 :: rest).enum.map
        (fun ie => langListItem ie.1 ie.2.1 ie.2.2)).flatten := by
      intro hc
      obtain ⟨ie, hie, hce⟩ := mem_flatten_map hc
      exact (langListItem_brace
        (hok ie.2 (hmem ie.2 (List.snd_mem_of_mem_enum hie)))).2 hce
    have hPlt : '<' ∈
        ((e0 :: rest).map (fun t => progressSegment t.2)).flatten := by
      rw [List.map_cons, List.flatten_cons]
      refine List.mem_append.mpr (Or.inl ?_)
      simp only [progressSegment]
      refine List.mem_append.mpr (Or.inl (List.mem_append.mpr (Or.inl
        (List.mem_append.mpr (Or.inl (List.mem_append.mpr (Or.inl ?_)))))))
      decide
    have hLlt : '<' ∈ ((e0 :: rest).enum.map
        (fun ie => langListItem ie.1 ie.2.1 ie.2.2)).flatten := by
      refine List.mem_flatten.mpr ⟨langListItem 0 e0.1 e0.2, ?_, ?_⟩
      · refine List.mem_map.mpr ⟨(0, e0), ?_, rfl⟩
        rw [List.enum_cons]
        exact List.mem_cons_self _ _
      · simp only [langListItem]
        refine List.mem_append.mpr (Or.inl (List.mem_append.mpr (Or.inl
          (List.mem_append.mpr (Or.inl (List.mem_append.mpr (Or.inl
          (List.mem_append.mpr (Or.inl (List.mem_append.mpr (Or.inl
          (List.mem_append.mpr (Or.inl (List.mem_append.mpr
          (Or.inl ?_)))))))))))))))
        decide
    refine ⟨replaceAll tokLangList ((e0 :: rest).enum.map
        (fun ie => langListItem ie.1 ie.2.1 ie.2.2)).flatten
      (replaceAll tokProgress
        ((e0 :: rest).map (fun t => progressSegment t.2)).flatten tpl),
      ?_, ?_, ?_⟩
    · simp only [generate_languages]
      rw [hsort]
      rfl
    · refine not_occ_replaceAll_other
        (show tokProgress.head? = some '\x7b' by decide) hLb1
        (show tokProgress.getLast? = some '\x7d' by decide) hLb2
        (fun ho => (by decide : '<' ∉ tokProgress) (mem_of_occ ho hLlt))
        tokLangList _ ?_
      exact not_occ_replaceAll_self
        (show tokProgress.head? = some '\x7b' by decide) hPb1
        (show tokProgress.getLast? = some '\x7d' by decide) hPb2
        (fun ho => (by decide : '<' ∉ tokProgress) (mem_of_occ ho hPlt)) _
    · exact not_occ_replaceAll_self
        (show tokLangList.head? = some '\x7b' by decide) hLb1
        (show tokLangList.getLast? = some '\x7d' by decide) hLb2
        (fun ho => (by decide : '<' ∉ tokLangList) (mem_of_occ ho hLlt)) _

/-! Claim theorems. -/

/-- C1 counterexample: for `EXCLUDE_FORKED_REPOS = " false "` the code strips
whitespace before the case-insensitive comparison and computes `false`, while
the claimed truthiness rule (present, non-empty, not case-insensitively equal
to the unstripped literal "false") yields `true`. -/
theorem C1_counterexample :
    ignoreForkedFlag (some " false ".data) = false ∧
    claimedForkedFlag (some " false ".data) = true := by
  constructor <;> rfl

/-- C1 (amended): the "exclude forked repos" flag computed by `main` is true
iff `EXCLUDE_FORKED_REPOS` is present, non-empty, and its
whitespace-stripped, lowercased value is not the literal "false". -/
theorem C1_flag_truthiness (raw : Option (List Char)) :
    ignoreForkedFlag raw = true ↔
      ∃ v, raw = some v ∧ v ≠ [] ∧ pyLower (pyStrip v) ≠ "false".data := by
  cases raw with
  | none => simp [ignoreForkedFlag]
  | some v =>
    simp only [ignoreForkedFlag]
    by_cases h1 : v = []
    · subst h1
      rw [if_pos rfl]
      constructor
      · intro h
        cases h
      · rintro ⟨v', hv, hne, _⟩
        injection hv with hv
        exact absurd hv.symm hne
    · rw [if_neg h1]
      by_cases h2 : pyLower (pyStrip v) = "false".data
      · rw [if_pos h2]
        constructor
        · intro h
          cases h
        · rintro ⟨v', hv, _, hne⟩
          injection hv with hv
          exact absurd (hv ▸ h2) hne
      · rw [if_neg h2]
        constructor
        · intro _
          exact ⟨v, rfl, h1, h2⟩
        · intro _
          rfl

/-- C2 counterexample: when `generated` already exists with mode 0o755, the
function returns normally without touching it, so afterwards the mode is not
0o777 even though the claim promises mode 777 for every starting state. -/
theorem C2_counterexample :
    (generate_output_folder
      { isdir := fun n => decide (n = genDir), isfile := fun _ => false,
        readable := fun _ => false, writable := fun _ => false,
        mode := fun _ => 0o755 }).isdir genDir = true ∧
    ¬ (generate_output_folder
      { isdir := fun n => decide (n = genDir), isfile := fun _ => false,
        readable := fun _ => false, writable := fun _ => false,
        mode := fun _ => 0o755 }).mode genDir = 0o777 := by
  constructor <;> decide

/-- C2 (amended): after `generate_output_folder` returns, the directory
`generated` exists; if it was absent beforehand it has been created with
mode 0o777; and a repeated call is a no-op (it returns the state of the
first call unchanged). -/
theorem C2_output_folder (fs : FSt) :
    (generate_output_folder fs).isdir genDir = true ∧
    (fs.isdir genDir = false →
      (generate_output_folder fs).mode genDir = 0o777) ∧
    generate_output_folder (generate_output_folder fs) =
      generate_output_folder fs := by
  by_cases h : fs.isdir genDir
  · rw [generate_output_folder, if_pos h]
    refine ⟨h, fun h' => ?_, ?_⟩
    · rw [h] at h'
      cases h'
    · rw [generate_output_folder, if_pos h]
  · rw [generate_output_folder, if_neg h]
    have hdir : (fun n => if n = genDir then true else fs.isdir n) genDir
        = true := by simp
    refine ⟨hdir, fun _ => by simp, ?_⟩
    rw [generate_output_folder, if_pos hdir]

/-- C2 witness: a concrete starting state without the directory; after the
call the directory has mode 0o777. -/
theorem C2_output_folder_witness :
    ({ isdir := fun _ => false, isfile := fun _ => false,
       readable := fun _ => false, writable := fun _ => false,
       mode := fun _ => 0 } : FSt).isdir genDir = false ∧
    (generate_output_folder
      { isdir := fun _ => false, isfile := fun _ => false,
        readable := fun _ => false, writable := fun _ => false,
        mode := fun _ => 0 }).mode genDir = 0o777 :=
  ⟨rfl, (C2_output_folder _).2.1 rfl⟩

/-- C3: for every template pair and every valid snapshot (name and language
names/colors without brace or backslash characters — braces so that the
substituted data cannot recreate a placeholder, backslashes so that every
replacement string lies in the domain where `re.sub` treats it literally —
name not a fragment of its own token, nonempty language mapping with all
sizes present), the rendered overview output contains none of its seven
placeholder tokens, the rendered languages output contains neither of its
two placeholder tokens, and every placeholder substitution performed
rewrites a unique occurrence exactly once (for a token occurring once in
the template and a backslash-free value, the output splices the value in
its place). -/
theorem C3_full_substitution (tplO tplL : List Char) (s : Snapshot)
    (hn1 : '\x7b' ∉ s.name) (hn2 : '\x7d' ∉ s.name)
    (hn3 : ¬ occ s.name tokName)
    (_hn4 : '\\' ∉ s.name)
    (hne : s.languages ≠ [])
    (hsz : ∀ e ∈ s.languages, (e.2.size).isSome)
    (hok : ∀ e ∈ s.languages, LangOK e) :
    (∀ tk ∈ overviewTokens, ¬ occ tk (generate_overview tplO s)) ∧
    (∃ out, generate_languages tplL s = .ok out ∧
      ¬ occ tokProgress out ∧ ¬ occ tokLangList out) ∧
    (∀ tk ∈ allTokens, ∀ (v a b : List Char), '\\' ∉ v →
      ¬ occ tk a → ¬ occ tk b →
      replaceAll tk v (a ++ tk ++ b) = a ++ v ++ b) := by
  refine ⟨overview_no_token tplO s hn1 hn2 hn3,
    languages_ok_no_token tplL s hne hsz hok, ?_⟩
  intro tk htk v a b _ hna hnb
  simp only [allTokens, overviewTokens, List.mem_append, List.mem_cons,
    List.not_mem_nil, or_false] at htk
  rcases htk with ((rfl | rfl | rfl | rfl | rfl | rfl | rfl) | rfl | rfl) <;>
    exact replaceAll_once rfl (by decide) hna hnb

/-- C3 witness: a concrete snapshot and concrete templates. -/
theorem C3_full_substitution_witness :
    ('\x7b' ∉ "John".data ∧ '\x7d' ∉ "John".data ∧
      ¬ occ "John".data tokName ∧ '\\' ∉ "John".data ∧
      ([("Python".data, ⟨some 500, some "#3572A5".data, some 60⟩),
        ("Lua".data, ⟨some 100, none, none⟩)] :
          List (List Char × LangData)) ≠ [] ∧
      (∀ e ∈ ([("Python".data, ⟨some 500, some "#3572A5".data, some 60⟩),
        ("Lua".data, ⟨some 100, none, none⟩)] :
          List (List Char × LangData)), (e.2.size).isSome) ∧
      (∀ e ∈ ([("Python".data, ⟨some 500, some "#3572A5".data, some 60⟩),
        ("Lua".data, ⟨some 100, none, none⟩)] :
          List (List Char × LangData)), LangOK e)) ∧
    ((∀ tk ∈ overviewTokens, ¬ occ tk (generate_overview "ab".data
      { name := "John".data, stargazers := 1234, forks := 5,
        total_contributions := 6789, lines_changed := (3, 4), views := 10,
        repos := ["r1".data, "r2".data],
        languages := [("Python".data, ⟨some 500, some "#3572A5".data, some 60⟩),
          ("Lua".data, ⟨some 100, none, none⟩)] })) ∧
    (∃ out, generate_languages "cd".data
      { name := "John".data, stargazers := 1234, forks := 5,
        total_contributions := 6789, lines_changed := (3, 4), views := 10,
        repos := ["r1".data, "r2".data],
        languages := [("Python".data, ⟨some 500, some "#3572A5".data, some 60⟩),
          ("Lua".data, ⟨some 100, none, none⟩)] } = .ok out ∧
      ¬ occ tokProgress out ∧ ¬ occ tokLangList out) ∧
    (∀ tk ∈ allTokens, ∀ (v a b : List Char), '\\' ∉ v →
      ¬ occ tk a → ¬ occ tk b →
      replaceAll tk v (a ++ tk ++ b) = a ++ v ++ b)) :=
  ⟨⟨by decide, by decide, by decide, by decide, by decide, by decide,
      by decide⟩,
    C3_full_substitution "ab".data "cd".data _
      (by decide) (by decide) (by decide) (by decide) (by decide) (by decide)
      (by decide)⟩

/-- C4: with every `size` present, the sort step of `generate_languages`
succeeds and equals the total stable descending insertion sort; that sort is
a permutation of the input, and on index-tagged entries any two entries in
output order either strictly decrease in size or are tied with their
original positions in order (stable descending sort by `size`). -/
theorem C4_sort_stable (items : List (List Char × LangData))
    (hall : ∀ e ∈ items, (e.2.size).isSome) :
    sortByE (fun t => t.2.size) items =
      .ok (sortByD (fun t => (t.2.size).getD 0) items) ∧
    (sortByD (fun t : List Char × LangData => (t.2.size).getD 0) items).Perm
      items ∧
    List.Pairwise
      (fun a b : Nat × (List Char × LangData) =>
        (b.2.2.size).getD 0 < (a.2.2.size).getD 0 ∨
        ((a.2.2.size).getD 0 = (b.2.2.size).getD 0 ∧ a.1 < b.1))
      (sortByD (fun t : Nat × (List Char × LangData) => (t.2.2.size).getD 0)
        items.enum) :=
  ⟨sortByE_eq_D hall, sortByD_perm _ items,
    sortByD_pairwise_stable _ Prod.fst items.enum (enum_pairwise items)⟩

/-- C4 witness: the spec's example sizes [500, 500, 100] with a tied pair. -/
theorem C4_sort_stable_witness :
    (∀ e ∈ ([("A".data, ⟨some 500, none, none⟩),
        ("B".data, ⟨some 500, none, none⟩),
        ("C".data, ⟨some 100, none, none⟩)] : List (List Char × LangData)),
      (e.2.size).isSome) ∧
    (sortByE (fun t => t.2.size)
        ([("A".data, ⟨some 500, none, none⟩),
          ("B".data, ⟨some 500, none, none⟩),
          ("C".data, ⟨some 100, none, none⟩)] : List (List Char × LangData)) =
      .ok (sortByD (fun t => (t.2.size).getD 0)
        [("A".data, ⟨some 500, none, none⟩),
          ("B".data, ⟨some 500, none, none⟩),
          ("C".data, ⟨some 100, none, none⟩)]) ∧
    (sortByD (fun t : List Char × LangData => (t.2.size).getD 0)
        [("A".data, ⟨some 500, none, none⟩),
          ("B".data, ⟨some 500, none, none⟩),
          ("C".data, ⟨some 100, none, none⟩)]).Perm
      [("A".data, ⟨some 500, none, none⟩),
        ("B".data, ⟨some 500, none, none⟩),
        ("C".data, ⟨some 100, none, none⟩)] ∧
    List.Pairwise
      (fun a b : Nat × (List Char × LangData) =>
        (b.2.2.size).getD 0 < (a.2.2.size).getD 0 ∨
        ((a.2.2.size).getD 0 = (b.2.2.size).getD 0 ∧ a.1 < b.1))
      (sortByD (fun t : Nat × (List Char × LangData) => (t.2.2.size).getD 0)
        ([("A".data, ⟨some 500, none, none⟩),
          ("B".data, ⟨some 500, none, none⟩),
          ("C".data, ⟨some 100, none, none⟩)] :
            List (List Char × LangData)).enum)) :=
  ⟨by decide, C4_sort_stable _ (by decide)⟩

/-- Merging of adjacent concrete pieces of a concatenation in front of an
arbitrary tail. -/
theorem append_concrete_merge {B c C M : List Char} (h : B ++ (c ++ C) = M)
    (Z : List Char) : B ++ (c ++ (C ++ Z)) = M ++ Z := by
  rw [← h]
  simp [List.append_assoc]

/-- C5: a language entry with no `prop` key renders its progress-bar segment
with width text `0.000%` and its list item with displayed percentage
`0.00%`, with no failure (both renderings are total). -/
theorem C5_missing_prop (i : Nat) (lang : List Char) (d : LangData)
    (h : d.prop = none) :
    progressSegment d =
      "<span style=\"background-color: ".data ++ resolveColor d ++
        ";width: 0.000%;\" class=\"progress-item\"></span>".data ∧
    langListItem i lang d =
      "\n<li style=\"animation-delay: ".data ++
        natDigits (i * delay_between) ++
        "ms;\">\n<svg xmlns=\"http://www.w3.org/2000/svg\" class=\"octicon\" style=\"fill:".data ++
        resolveColor d ++
        ";\"\nviewBox=\"0 0 16 16\" version=\"1.1\" width=\"16\" height=\"16\"><path\nfill-rule=\"evenodd\" d=\"M8 4a4 4 0 100 8 4 4 0 000-8z\"></path></svg>\n<span class=\"lang\">".data ++
        lang ++
        "</span>\n<span class=\"percent\">0.00%</span>\n</li>\n\n".data := by
  have h3 : fmtFixed 3 (d.prop.getD 0) = "0.000".data := by
    rw [h]
    decide
  have h2 : fmtFixed 2 (d.prop.getD 0) = "0.00".data := by
    rw [h]
    decide
  constructor
  · simp only [progressSegment, h3]
    simp only [List.append_assoc, List.append_right_inj]
    decide
  · simp only [langListItem, h2]
    simp only [List.append_assoc, List.append_right_inj]
    decide

/-- C5 witness: a concrete entry without `prop`. -/
theorem C5_missing_prop_witness :
    (⟨some 5, some "#123456".data, none⟩ : LangData).prop = none ∧
    (progressSegment ⟨some 5, some "#123456".data, none⟩ =
      "<span style=\"background-color: ".data ++
        resolveColor ⟨some 5, some "#123456".data, none⟩ ++
        ";width: 0.000%;\" class=\"progress-item\"></span>".data ∧
    langListItem 1 "Py".data ⟨some 5, some "#123456".data, none⟩ =
      "\n<li style=\"animation-delay: ".data ++
        natDigits (1 * delay_between) ++
        "ms;\">\n<svg xmlns=\"http://www.w3.org/2000/svg\" class=\"octicon\" style=\"fill:".data ++
        resolveColor ⟨some 5, some "#123456".data, none⟩ ++
        ";\"\nviewBox=\"0 0 16 16\" version=\"1.1\" width=\"16\" height=\"16\"><path\nfill-rule=\"evenodd\" d=\"M8 4a4 4 0 100 8 4 4 0 000-8z\"></path></svg>\n<span class=\"lang\">".data ++
        "Py".data ++
        "</span>\n<span class=\"percent\">0.00%</span>\n</li>\n\n".data) :=
  ⟨rfl, C5_missing_prop 1 "Py".data _ rfl⟩

/-- C6: a language entry with no `color` key (or a `null` color, which
`.get` does not distinguish) renders both the progress-bar segment
background and the list-item icon fill with the fallback `#000000`, with no
failure. -/
theorem C6_missing_color (i : Nat) (lang : List Char) (d : LangData)
    (h : d.color = none) :
    progressSegment d =
      "<span style=\"background-color: #000000;width: ".data ++
        fmtFixed 3 (d.prop.getD 0) ++
        "%;\" class=\"progress-item\"></span>".data ∧
    langListItem i lang d =
      "\n<li style=\"animation-delay: ".data ++
        natDigits (i * delay_between) ++
        "ms;\">\n<svg xmlns=\"http://www.w3.org/2000/svg\" class=\"octicon\" style=\"fill:#000000;\"\nviewBox=\"0 0 16 16\" version=\"1.1\" width=\"16\" height=\"16\"><path\nfill-rule=\"evenodd\" d=\"M8 4a4 4 0 100 8 4 4 0 000-8z\"></path></svg>\n<span class=\"lang\">".data ++
        lang ++
        "</span>\n<span class=\"percent\">".data ++
        fmtFixed 2 (d.prop.getD 0) ++
        "%</span>\n</li>\n\n".data := by
  have hcol : resolveColor d = "#000000".data := by
    simp only [resolveColor, h, Option.getD_none]
  constructor
  · simp only [progressSegment, hcol]
    simp only [List.append_assoc, List.append_right_inj]
    exact append_concrete_merge (by decide) _
  · simp only [langListItem, hcol]
    simp only [List.append_assoc, List.append_right_inj]
    exact append_concrete_merge (by decide) _

/-- C6 witness: a concrete entry without `color`. -/
theorem C6_missing_color_witness :
    (⟨some 5, none, some 25⟩ : LangData).color = none ∧
    (progressSegment ⟨some 5, none, some 25⟩ =
      "<span style=\"background-color: #000000;width: ".data ++
        fmtFixed 3 ((⟨some 5, none, some 25⟩ : LangData).prop.getD 0) ++
        "%;\" class=\"progress-item\"></span>".data ∧
    langListItem 0 "Go".data ⟨some 5, none, some 25⟩ =
      "\n<li style=\"animation-delay: ".data ++
        natDigits (0 * delay_between) ++
        "ms;\">\n<svg xmlns=\"http://www.w3.org/2000/svg\" class=\"octicon\" style=\"fill:#000000;\"\nviewBox=\"0 0 16 16\" version=\"1.1\" width=\"16\" height=\"16\"><path\nfill-rule=\"evenodd\" d=\"M8 4a4 4 0 100 8 4 4 0 000-8z\"></path></svg>\n<span class=\"lang\">".data ++
        "Go".data ++
        "</span>\n<span class=\"percent\">".data ++
        fmtFixed 2 ((⟨some 5, none, some 25⟩ : LangData).prop.getD 0) ++
        "%</span>\n</li>\n\n".data) :=
  ⟨rfl, C6_missing_color 0 "Go".data _ rfl⟩

/-- C7: on a template whose literal parts contain no opening brace around a
single `lines_changed` placeholder, `generate_overview` replaces that
placeholder with the thousands-separated sum of the two components of the
snapshot's lines-changed pair, and with nothing else. -/
theorem C7_lines_changed (s : Snapshot) (a b : List Char)
    (ha : '\x7b' ∉ a) (hb : '\x7b' ∉ b) :
    generate_overview (a ++ tokLinesChanged ++ b) s =
      a ++ fmtComma (s.lines_changed.1 + s.lines_changed.2) ++ b := by
  have hstep : ∀ tk : List Char, tk.head? = some '\x7b' →
      (∀ i, i < tokLinesChanged.length →
        (tokLinesChanged.drop i).length < tk.length →
        ¬ begins (tokLinesChanged.drop i) tk) →
      ¬ occ tk tokLinesChanged →
      ¬ occ tk (a ++ tokLinesChanged ++ b) := fun _ h1 h2 h3 =>
    not_occ_mid h1 ha hb h2 h3 (by decide)
  have hv : '\x7b' ∉ fmtComma (s.lines_changed.1 + s.lines_changed.2) :=
    fun hin => absurd (fmtComma_mem hin) (by decide)
  have hnotin : ∀ tk : List Char, tk.head? = some '\x7b' →
      ¬ occ tk (a ++ fmtComma (s.lines_changed.1 + s.lines_changed.2) ++ b) := by
    intro tk h1
    apply not_occ_of_head_notin h1
    intro hmem
    rcases List.mem_append.mp hmem with h' | h'
    · rcases List.mem_append.mp h' with h'' | h''
      · exact ha h''
      · exact hv h''
    · exact hb h'
  simp only [generate_overview]
  rw [replaceAll_of_not_occ
    (hstep tokName (by decide) (by decide) (by decide))]
  rw [replaceAll_of_not_occ
    (hstep tokStars (by decide) (by decide) (by decide))]
  rw [replaceAll_of_not_occ
    (hstep tokForks (by decide) (by decide) (by decide))]
  rw [replaceAll_of_not_occ
    (hstep tokContributions (by decide) (by decide) (by decide))]
  rw [replaceAll_splice (show tokLinesChanged.head? = some '\x7b' by decide)
    a b (not_occ_append_dropLast_of_head
      (show tokLinesChanged.head? = some '\x7b' by decide) ha)]
  rw [replaceAll_of_not_occ (not_occ_of_head_notin
    (show tokLinesChanged.head? = some '\x7b' by decide) hb)]
  rw [replaceAll_of_not_occ (hnotin tokViews (by decide))]
  rw [replaceAll_of_not_occ (hnotin tokRepos (by decide))]

/-- C7 witness: a concrete template and snapshot; 3 added plus 4 removed
lines render as 7. -/
theorem C7_lines_changed_witness :
    '\x7b' ∉ "x".data ∧ '\x7b' ∉ "y".data ∧
    generate_overview ("x".data ++ tokLinesChanged ++ "y".data)
      { name := "N".data, stargazers := 1, forks := 2,
        total_contributions := 3, lines_changed := (3, 4), views := 5,
        repos := [], languages := [] } =
      "x".data ++ fmtComma
        ((((3, 4) : Nat × Nat)).1 + (((3, 4) : Nat × Nat)).2) ++ "y".data :=
  ⟨by decide, by decide,
    C7_lines_changed _ "x".data "y".data (by decide) (by decide)⟩

/-- C8: with `ACCESS_TOKEN` or `GITHUB_ACTOR` unset, `main` ends in an
error, writes no output file, opens no network session, and constructs no
statistics provider. -/
theorem C8_missing_credentials (env : Env) (fs : FSt)
    (h : env.access_token = none ∨ env.github_actor = none) :
    (∃ e, (main env fs).2 = Except.error e) ∧
    (∀ p, Ev.wroteOutput p ∉ (main env fs).1) ∧
    Ev.sessionOpened ∉ (main env fs).1 ∧
    (∀ u t er el fl, Ev.statsConstructed u t er el fl ∉ (main env fs).1) := by
  have hev : ∃ e, main env fs =
      ((if fs.isdir genDir then ([] : List Ev) else [Ev.dirCreated]),
        Except.error e) := by
    simp only [main]
    cases hcp : check_permissions (generate_output_folder fs) with
    | error e => exact ⟨e, rfl⟩
    | ok _ =>
      rcases h with h | h
      · rw [h]
        exact ⟨.tokenMissing, rfl⟩
      · cases htok : env.access_token with
        | none => exact ⟨.tokenMissing, rfl⟩
        | some t =>
          dsimp only
          by_cases ht : t = []
          · rw [if_pos ht]
            exact ⟨.tokenMissing, rfl⟩
          · rw [if_neg ht, h]
            exact ⟨.actorMissing, rfl⟩
  obtain ⟨e, he⟩ := hev
  refine ⟨⟨e, by rw [he]⟩, fun p => ?_, ?_, fun u t er el fl => ?_⟩ <;>
    rw [he] <;> dsimp only <;> split <;> simp

/-- Concrete environment with `ACCESS_TOKEN` unset, for the C8 witness. -/
def envNoToken : Env where
  access_token := none
  github_actor := some "u".data
  excluded := none
  excluded_langs := none
  exclude_forked_repos := none

/-- Bare filesystem state, for the C8 witness. -/
def fsBare : FSt where
  isdir := fun _ => false
  isfile := fun _ => false
  readable := fun _ => false
  writable := fun _ => false
  mode := fun _ => 0

/-- C8 witness: a concrete environment with `ACCESS_TOKEN` unset. -/
theorem C8_missing_credentials_witness :
    (envNoToken.access_token = none ∨ envNoToken.github_actor = none) ∧
    ((∃ e, (main envNoToken fsBare).2 = Except.error e) ∧
    (∀ p, Ev.wroteOutput p ∉ (main envNoToken fsBare).1) ∧
    Ev.sessionOpened ∉ (main envNoToken fsBare).1 ∧
    (∀ u t er el fl,
      Ev.statsConstructed u t er el fl ∉ (main envNoToken fsBare).1)) :=
  ⟨Or.inl rfl, C8_missing_credentials envNoToken fsBare (Or.inl rfl)⟩

/-- C9: with at least two language entries and some entry lacking `size`,
the sort key comparison hits `None` and the sort — and with it the whole
languages renderer — fails with `TypeError`; the tolerance for missing
`prop` and `color` does not extend to `size`. -/
theorem C9_missing_size (tpl : List Char) (s : Snapshot)
    (hlen : 2 ≤ s.languages.length)
    (hmiss : ∃ e ∈ s.languages, e.2.size = none) :
    sortByE (fun t => t.2.size) s.languages = .error .typeError ∧
    generate_languages tpl s = .error .typeError := by
  have h1 := sortByE_error (fun t : List Char × LangData => t.2.size)
    s.languages hlen hmiss
  refine ⟨h1, ?_⟩
  simp only [generate_languages]
  rw [h1]
  rfl

/-- Concrete snapshot with a `size`-less language entry, for the C9
witness. -/
def snapNoSize : Snapshot where
  name := "N".data
  stargazers := 0
  forks := 0
  total_contributions := 0
  lines_changed := (0, 0)
  views := 0
  repos := []
  languages :=
    [("A".data, ⟨some 1, none, some 60⟩), ("B".data, ⟨none, none, some 40⟩)]

/-- C9 witness: two entries, the second without `size`. -/
theorem C9_missing_size_witness :
    2 ≤ snapNoSize.languages.length ∧
    (∃ e ∈ snapNoSize.languages, e.2.size = none) ∧
    (sortByE (fun t => t.2.size) snapNoSize.languages = .error .typeError ∧
    generate_languages "t".data snapNoSize = .error .typeError) :=
  ⟨by decide, by decide,
    C9_missing_size "t".data snapNoSize (by decide) (by decide)⟩

/-- C10: `main` treats `ACCESS_TOKEN=""` exactly like an unset
`ACCESS_TOKEN` (the whole run outcome is identical), whereas
`GITHUB_ACTOR=""` is accepted: with a valid token and permissions, the run
succeeds and the statistics provider is constructed with the empty user. -/
theorem C10_empty_token_vs_actor :
    (∀ (env : Env) (fs : FSt),
      main { env with access_token := some [] } fs =
        main { env with access_token := none } fs) ∧
    (∀ (env : Env) (fs : FSt) (tok : List Char),
      check_permissions (generate_output_folder fs) = .ok () →
      env.access_token = some tok → tok ≠ [] →
      env.github_actor = some [] →
      (main env fs).2 = .ok () ∧
      Ev.statsConstructed [] tok (parseExcl env.excluded)
        (parseExcl env.excluded_langs)
        (ignoreForkedFlag env.exclude_forked_repos) ∈ (main env fs).1) := by
  constructor
  · intro env fs
    simp only [main]
    cases check_permissions (generate_output_folder fs) with
    | error e => rfl
    | ok _ => rfl
  · intro env fs tok hcp htok hne hactor
    simp only [main]
    rw [hcp]
    dsimp only
    rw [htok]
    dsimp only
    rw [if_neg hne, hactor]
    dsimp only
    refine ⟨rfl, ?_⟩
    refine List.mem_append.mpr (Or.inr ?_)
    simp

/-- Concrete filesystem state whose template files exist and are readable,
for the C10 witness. -/
def fsTemplates : FSt where
  isdir := fun n => decide (n = templatesDir)
  isfile := fun n => decide (n = overviewTpl) || decide (n = languagesTpl)
  readable := fun _ => true
  writable := fun _ => false
  mode := fun _ => 0

/-- Concrete environment with a nonempty token and an empty actor, for the
C10 witness. -/
def envEmptyActor : Env where
  access_token := some "t".data
  github_actor := some []
  excluded := none
  excluded_langs := none
  exclude_forked_repos := none

/-- C10 witness: a filesystem state passing the permission checks, an
environment with a nonempty token and an empty actor. -/
theorem C10_empty_token_vs_actor_witness :
    check_permissions (generate_output_folder fsTemplates) = .ok () ∧
    "t".data ≠ [] ∧
    ((main envEmptyActor fsTemplates).2 = .ok () ∧
    Ev.statsConstructed [] "t".data (parseExcl envEmptyActor.excluded)
      (parseExcl envEmptyActor.excluded_langs)
      (ignoreForkedFlag envEmptyActor.exclude_forked_repos) ∈
        (main envEmptyActor fsTemplates).1) :=
  ⟨rfl, by decide,
    C10_empty_token_vs_actor.2 envEmptyActor fsTemplates "t".data rfl rfl
      (by decide) rfl⟩

end GS
